import Mathlib

/-!
# LRUCache (src/samples/cpp.cpp): a shallow embedding

The C++ class keeps an `unordered_map<K, shared_ptr<Node>>` and a doubly linked
list of `Node`s threaded through `prev` / `next`, with `head` and `tail`.

* A `shared_ptr<Node>` is a `Ptr = Option Nat`: `none` is the null pointer and
  `some i` is the address of the `i`-th node ever allocated.
* The node store is a `List (Node K V)`; `make_shared` appends to it, so a
  fresh address is never equal to a live one.  Nodes no longer referenced stay
  in the store (they cannot be observed through the class).
* Dereferencing a null pointer is undefined behaviour in the source; here every
  dereference goes through `Option`, and an operation that would dereference
  null yields `none`.
* The `unordered_map` is an association list without repeated keys:
  `find`, `erase`, `operator[]=` and `size()` are `Index.find`, `Index.erase`,
  `Index.assign` and `List.length`.

* `size_t capacity` and `cache.size()` are only compared, never computed with, so
  both are plain `Nat`s; `size_t` has no negative values.

The markers `__GHOST_CARET__`, `__GHOST_BEGIN__` and `__GHOST_END__` of the
source only delimit the three unlinking statements of `moveToFront`; the
statements themselves are part of the function body and are embedded as such.
-/

set_option linter.unusedSectionVars false
set_option linter.unusedVariables false

namespace LRU

/-- A `std::shared_ptr<Node>`: null or the address of a node. -/
abbrev Ptr := Option Nat

/-- The `struct Node` of the source. -/
structure Node (K V : Type) where
  key : K
  value : V
  prev : Ptr
  next : Ptr
deriving DecidableEq

/-- The constructor `Node(const K& k, const V& v) : key(k), value(v) {}`: both links null. -/
def Node.init {K V : Type} (k : K) (v : V) : Node K V :=
  { key := k, value := v, prev := none, next := none }

/-- The node store: the node at address `i` is the `i`-th element. -/
abbrev Heap (K V : Type) := List (Node K V)

/-- Dereference `p->`: fails on null and on an address that was never allocated. -/
def Heap.read {K V : Type} (h : Heap K V) : Ptr → Option (Node K V)
  | none => none
  | some i => h[i]?

/-- The `std::unordered_map<K, std::shared_ptr<Node>>` as an association list. -/
abbrev Index (K : Type) := List (K × Ptr)

/-- The `cache.find(key)` lookup: `none` stands for `cache.end()`. -/
def Index.find {K : Type} [DecidableEq K] : Index K → K → Option Ptr
  | [], _ => none
  | (k', p) :: r, k => if k' = k then some p else Index.find r k

/-- The `cache.erase(key)` call. -/
def Index.erase {K : Type} [DecidableEq K] (m : Index K) (k : K) : Index K :=
  m.filter (fun e => decide (e.1 ≠ k))

/-- The `cache[key] = node` assignment. -/
def Index.assign {K : Type} [DecidableEq K] (m : Index K) (k : K) (p : Ptr) : Index K :=
  (k, p) :: Index.erase m k

/-- The data members of `class LRUCache`, together with the node store. -/
structure LRUCache (K V : Type) where
  capacity : Nat
  cache : Index K
  head : Ptr
  tail : Ptr
  heap : Heap K V
deriving DecidableEq

variable {K V : Type} [DecidableEq K]

/-- The constructor `explicit LRUCache(size_t cap) : capacity(cap) {}`. -/
def LRUCache.new (cap : Nat) : LRUCache K V :=
  { capacity := cap, cache := [], head := none, tail := none, heap := [] }

/-- The statement `if (node->prev) node->prev->next = node->next;`. -/
def unlinkPrev (h : Heap K V) (node : Ptr) : Option (Heap K V) := do
  let n ← h.read node
  match n.prev with
  | none => pure h
  | some p =>
    let pn ← h[p]?
    pure (h.set p { pn with next := n.next })

/-- The statement `if (node->next) node->next->prev = node->prev;`. -/
def unlinkNext (h : Heap K V) (node : Ptr) : Option (Heap K V) := do
  let n ← h.read node
  match n.next with
  | none => pure h
  | some q =>
    let qn ← h[q]?
    pure (h.set q { qn with prev := n.prev })

/-- The statement `if (node == tail) tail = node->prev;`. -/
def retarget (h : Heap K V) (tail node : Ptr) : Option Ptr :=
  if node = tail then (h.read node).map (fun n => n.prev) else some tail

/-- The statements `node->next = head; node->prev = nullptr;`. -/
def relinkFront (h : Heap K V) (head node : Ptr) : Option (Heap K V) :=
  match node with
  | none => none
  | some i => do
    let n ← h[i]?
    let h1 := h.set i { n with next := head }
    let n1 ← h1[i]?
    pure (h1.set i { n1 with prev := none })

/-- The statement `if (head) head->prev = node;`. -/
def linkHead (h : Heap K V) (head node : Ptr) : Option (Heap K V) :=
  match head with
  | none => pure h
  | some j => do
    let hn ← h[j]?
    pure (h.set j { hn with prev := node })

/-- The private method `moveToFront(node)`. -/
def moveToFront (s : LRUCache K V) (node : Ptr) : Option (LRUCache K V) :=
  if node = s.head then some s
  else do
    -- Remove from current position
    let h1 ← unlinkPrev s.heap node
    let h2 ← unlinkNext h1 node
    let t1 ← retarget h2 s.tail node
    -- Move to front
    let h3 ← relinkFront h2 s.head node
    let h4 ← linkHead h3 s.head node
    let head1 := node
    let t2 := if t1 = none then head1 else t1
    pure { s with heap := h4, head := head1, tail := t2 }

/-- The method `get(key)`: the new state and the returned `std::optional<V>`. -/
def get (s : LRUCache K V) (key : K) : Option (LRUCache K V × Option V) :=
  match Index.find s.cache key with
  | none => some (s, none)
  | some p => do
    let s1 ← moveToFront s p
    let n ← s1.heap.read p
    pure (s1, some n.value)

/-- The block `if (cache.size() >= capacity) { ... }` of `put`. -/
def evict (s : LRUCache K V) : Option (LRUCache K V) :=
  if s.cache.length ≥ s.capacity then do
    let t ← s.heap.read s.tail
    let c1 := Index.erase s.cache t.key
    let t1 := t.prev
    match t1 with
    | none => pure { s with cache := c1, tail := t1 }
    | some i =>
      let tn ← s.heap[i]?
      pure { s with cache := c1, tail := t1, heap := s.heap.set i { tn with next := none } }
  else pure s

/-- The statement `it->second->value = value;`. -/
def storeValue (h : Heap K V) (node : Ptr) (value : V) : Option (Heap K V) :=
  match node with
  | none => none
  | some i => do
    let n ← h[i]?
    pure (h.set i { n with value := value })

/-- The method `put(key, value)`. -/
def put (s : LRUCache K V) (key : K) (value : V) : Option (LRUCache K V) :=
  match Index.find s.cache key with
  | some p => do
    let h1 ← storeValue s.heap p value
    moveToFront { s with heap := h1 } p
  | none => do
    -- Evict if at capacity
    let s1 ← evict s
    -- Create new node
    let node : Ptr := some s1.heap.length
    let s2 := { s1 with heap := s1.heap ++ [Node.init key value] }
    let s3 := { s2 with cache := Index.assign s2.cache key node }
    moveToFront s3 node

/-- A call of one of the two public methods. -/
inductive Op (K V : Type) where
  | get (key : K)
  | put (key : K) (value : V)
deriving DecidableEq

/-- One public call on the cache; the value returned by `get` is dropped. -/
def step (s : LRUCache K V) : Op K V → Option (LRUCache K V)
  | Op.get k => (get s k).map (fun r => r.1)
  | Op.put k v => put s k v

/-- A sequence of public calls, left to right. -/
def run (s : LRUCache K V) : List (Op K V) → Option (LRUCache K V)
  | [] => some s
  | o :: r => (step s o).bind (fun s1 => run s1 r)

/-- The states a client can drive a `LRUCache(cap)` into with `get` and `put`. -/
def Reachable (cap : Nat) (s : LRUCache K V) : Prop :=
  ∃ ops : List (Op K V), run (LRUCache.new cap) ops = some s

/-- The keys held by the index. -/
def keys (s : LRUCache K V) : List K := s.cache.map (fun e => e.1)

/-- The value the index associates with a key: that of the node it points to. -/
def valueOf (s : LRUCache K V) (k : K) : Option V :=
  match Index.find s.cache k with
  | none => none
  | some p => (s.heap.read p).map (fun n => n.value)

/-- The `cache.size()` call. -/
def size (s : LRUCache K V) : Nat := s.cache.length

/-- What `get(key)` returns to the caller: `none` if the call dereferences null,
otherwise the returned `std::optional<V>`. -/
def answer (s : LRUCache K V) (key : K) : Option (Option V) :=
  (get s key).map (fun r => r.2)

/-- The calls `put(k, v)` for a list of pairs, in order. -/
def puts (kvs : List (K × V)) : List (Op K V) :=
  kvs.map (fun e => Op.put e.1 e.2)

/-- The addresses met when following the `next` links from `p` until a null link.
The result is `none` when the fuel runs out first (the chain is longer than `fuel`
nodes, or cyclic) or when a link points to no node. -/
def walk (h : Heap K V) : Nat → Ptr → Option (List Nat)
  | _, none => some []
  | 0, some _ => none
  | fuel + 1, some p =>
    match h[p]? with
    | none => none
    | some n => (walk h fuel n.next).map (fun r => p :: r)

/-- The addresses met when following the `next` links from `p` up to and including
the node `tail` points to (or up to a null link, if `tail` is not met). The result is
`none` when the fuel runs out first or when a link points to no node. -/
def walkTo (h : Heap K V) (tail : Ptr) : Nat → Ptr → Option (List Nat)
  | _, none => some []
  | 0, some _ => none
  | fuel + 1, some p =>
    if some p = tail then some [p]
    else
      match h[p]? with
      | none => none
      | some n => (walkTo h tail fuel n.next).map (fun r => p :: r)

/-- The keys stored in the nodes at the given addresses. -/
def keysAt (h : Heap K V) (ps : List Nat) : List K :=
  ps.filterMap (fun p => (h[p]?).map (fun n => n.key))

/-- The keys read from `head` to `tail` along the `next` links. -/
def keysHeadToTail (s : LRUCache K V) : Option (List K) :=
  (walkTo s.heap s.tail s.heap.length s.head).map (keysAt s.heap)

/-! ## The abstract recency list

A `Cell` names one live node: its address and the key and value it stores.
A list of cells, most recently used first, is what the linked list denotes. -/

/-- One live entry: the address of its node and what the node stores. -/
structure Cell (K V : Type) where
  ptr : Nat
  key : K
  value : V
deriving DecidableEq

/-- Address of the first cell of a stretch, or `d` when the stretch is empty. -/
def firstPtr (l : List (Cell K V)) (d : Ptr) : Ptr :=
  match l with
  | [] => d
  | c :: _ => some c.ptr

/-- Address of the last cell of a stretch, or `d` when the stretch is empty. -/
def lastPtr : List (Cell K V) → Ptr → Ptr
  | [], d => d
  | c :: r, _ => lastPtr r (some c.ptr)

/-- The heap holds the cells of `l` as a doubly linked stretch entered from `pv`
and left towards `nx`. -/
def Seg (h : Heap K V) : Ptr → List (Cell K V) → Ptr → Prop
  | _, [], _ => True
  | pv, c :: r, nx =>
    h[c.ptr]? = some { key := c.key, value := c.value, prev := pv, next := firstPtr r nx }
      ∧ Seg h (some c.ptr) r nx

/-- The addresses of a stretch. -/
def ptrs (l : List (Cell K V)) : List Nat := l.map (fun c => c.ptr)

/-- The keys of a stretch, most recently used first. -/
def cellKeys (l : List (Cell K V)) : List K := l.map (fun c => c.key)

/-- The index entries a stretch calls for. -/
def idx (l : List (Cell K V)) : Index K := l.map (fun c => (c.key, some c.ptr))

/-- The key/value pairs of a stretch, most recently used first. -/
def kv (l : List (Cell K V)) : List (K × V) := l.map (fun c => (c.key, c.value))

/-! ## The reference model: a list of pairs, most recently used first -/

/-- The value paired with a key in the model, if any. -/
def Model.lookup : List (K × V) → K → Option V
  | [], _ => none
  | (k1, v) :: r, k => if k1 = k then some v else Model.lookup r k

/-- The model without the pair of a key. -/
def Model.remove (m : List (K × V)) (k : K) : List (K × V) :=
  m.filter (fun e => decide (e.1 ≠ k))

/-- Model of `get`: the paired value is returned and the pair moves to the front;
on an absent key nothing changes. -/
def Model.get (m : List (K × V)) (k : K) : Option V × List (K × V) :=
  match Model.lookup m k with
  | none => (none, m)
  | some v => (some v, (k, v) :: Model.remove m k)

/-- Model of `put` for capacity `cap`: a present key has its pair replaced and moved
to the front; otherwise the last pair is dropped when the length is at least `cap`,
and the new pair is consed. -/
def Model.put (cap : Nat) (m : List (K × V)) (k : K) (v : V) : List (K × V) :=
  match Model.lookup m k with
  | some _ => (k, v) :: Model.remove m k
  | none => (k, v) :: (if cap ≤ m.length then m.dropLast else m)

/-- One call on the model. -/
def Model.step (cap : Nat) (m : List (K × V)) : Op K V → List (K × V)
  | Op.get k => (Model.get m k).2
  | Op.put k v => Model.put cap m k v

/-- A sequence of calls on the model, left to right. -/
def Model.run (cap : Nat) (m : List (K × V)) : List (Op K V) → List (K × V)
  | [] => m
  | o :: r => Model.run cap (Model.step cap m o) r

/-- The pairs of a list with one pair per key, the first occurrence of each key kept,
in order. -/
def Model.firstOcc : List (K × V) → List (K × V)
  | [] => []
  | e :: r => e :: Model.remove (Model.firstOcc r) e.1

/-! ## The representation invariant -/

/-- The state `s` holds the recency list `l` (most recently used first): the chain
from `head` is `l`, `tail` is its last node, and the index lists exactly its keys.
The `next` link of the last node is null whenever the capacity is at least 2. -/
structure Repr (s : LRUCache K V) (l : List (Cell K V)) : Prop where
  cap_pos : 1 ≤ s.capacity
  bound : l.length ≤ s.capacity
  ptrs_nodup : (ptrs l).Nodup
  keys_nodup : (cellKeys l).Nodup
  head_eq : s.head = firstPtr l none
  tail_eq : s.tail = lastPtr l none
  index : List.Perm s.cache (idx l)
  seg : ∃ nx, Seg s.heap none l nx ∧ (2 ≤ s.capacity → nx = none)

/-- The state `s` denotes the model list `m`. -/
def Abs (s : LRUCache K V) (m : List (K × V)) : Prop :=
  ∃ l, Repr s l ∧ kv l = m

end LRU

namespace LRU

variable {K V : Type} [DecidableEq K]

/-! ## Stretches of the heap -/

theorem firstPtr_append (l1 l2 : List (Cell K V)) (d : Ptr) :
    firstPtr (l1 ++ l2) d = firstPtr l1 (firstPtr l2 d) := by
  cases l1 <;> rfl

theorem lastPtr_append (l1 l2 : List (Cell K V)) (d : Ptr) :
    lastPtr (l1 ++ l2) d = lastPtr l2 (lastPtr l1 d) := by
  induction l1 generalizing d with
  | nil => rfl
  | cons c r ih => simp [lastPtr, ih]

theorem lastPtr_concat (l : List (Cell K V)) (c : Cell K V) (d : Ptr) :
    lastPtr (l ++ [c]) d = some c.ptr := by
  simp [lastPtr_append, lastPtr]

theorem seg_cons (h : Heap K V) (pv nx : Ptr) (c : Cell K V) (r : List (Cell K V)) :
    Seg h pv (c :: r) nx ↔
      (h[c.ptr]? = some (Node.mk c.key c.value pv (firstPtr r nx)) ∧ Seg h (some c.ptr) r nx) :=
  Iff.rfl

theorem seg_append (h : Heap K V) (pv nx : Ptr) (l1 l2 : List (Cell K V)) :
    Seg h pv (l1 ++ l2) nx ↔
      Seg h pv l1 (firstPtr l2 nx) ∧ Seg h (lastPtr l1 pv) l2 nx := by
  induction l1 generalizing pv with
  | nil => simp [Seg, lastPtr]
  | cons c r ih =>
    rw [List.cons_append, seg_cons, seg_cons, ih, firstPtr_append]
    simp only [lastPtr, and_assoc]

/-- A stretch only depends on the nodes at its own addresses. -/
theorem seg_frame {h h1 : Heap K V} {pv nx : Ptr} {l : List (Cell K V)}
    (hfr : ∀ p ∈ ptrs l, h1[p]? = h[p]?) (hs : Seg h pv l nx) : Seg h1 pv l nx := by
  induction l generalizing pv with
  | nil => trivial
  | cons c r ih =>
    obtain ⟨hc, hr⟩ := hs
    refine ⟨?_, ih (fun p hp => hfr p (by simp [ptrs] at hp ⊢; exact Or.inr hp)) hr⟩
    rw [hfr c.ptr (by simp [ptrs])]
    exact hc

theorem seg_set_frame {h : Heap K V} {pv nx : Ptr} {l : List (Cell K V)} {p : Nat}
    (n : Node K V) (hp : p ∉ ptrs l) (hs : Seg h pv l nx) : Seg (h.set p n) pv l nx := by
  refine seg_frame (fun q hq => ?_) hs
  rw [List.getElem?_set_ne]
  rintro rfl
  exact hp hq

/-- Every address of a stretch is allocated. -/
theorem seg_lt {h : Heap K V} {pv nx : Ptr} {l : List (Cell K V)}
    (hs : Seg h pv l nx) {p : Nat} (hp : p ∈ ptrs l) : p < h.length := by
  induction l generalizing pv with
  | nil => simp [ptrs] at hp
  | cons c r ih =>
    obtain ⟨hc, hr⟩ := hs
    simp only [ptrs, List.map_cons, List.mem_cons] at hp
    rcases hp with rfl | hp
    · exact (List.getElem?_eq_some.1 hc).1
    · exact ih hr hp

/-- Redirecting the entry pointer of a non-empty stretch is a write to its first node. -/
theorem seg_set_prev {h : Heap K V} {pv nx : Ptr} {c : Cell K V} {r : List (Cell K V)}
    (hnd : (ptrs (c :: r)).Nodup) (hs : Seg h pv (c :: r) nx) (pv1 : Ptr) :
    Seg (h.set c.ptr { key := c.key, value := c.value, prev := pv1, next := firstPtr r nx })
      pv1 (c :: r) nx := by
  obtain ⟨hc, hr⟩ := hs
  have hlt : c.ptr < h.length := (List.getElem?_eq_some.1 hc).1
  refine ⟨by simp [List.getElem?_set, hlt], seg_set_frame _ ?_ hr⟩
  simp only [ptrs, List.map_cons, List.nodup_cons] at hnd
  exact hnd.1

/-- Redirecting the exit pointer of a non-empty stretch is a write to its last node. -/
theorem seg_set_next {h : Heap K V} {pv nx : Ptr} {l : List (Cell K V)} {c : Cell K V}
    (hnd : (ptrs (l ++ [c])).Nodup) (hs : Seg h pv (l ++ [c]) nx) (nx1 : Ptr) :
    Seg (h.set c.ptr { key := c.key, value := c.value, prev := lastPtr l pv, next := nx1 })
      pv (l ++ [c]) nx1 := by
  rw [seg_append] at hs ⊢
  obtain ⟨hl, hc, -⟩ := hs
  have hlt : c.ptr < h.length := (List.getElem?_eq_some.1 hc).1
  have hnot : c.ptr ∉ ptrs l := by
    simp only [ptrs, List.map_append, List.map_cons, List.map_nil] at hnd
    have := (List.nodup_append.1 hnd).2.2
    intro hmem
    exact this hmem (by simp)
  refine ⟨?_, ?_, trivial⟩
  · simpa [firstPtr] using seg_set_frame _ hnot hl
  · simp [List.getElem?_set, hlt, firstPtr]

/-- The node at the last address of a stretch. -/
theorem seg_last {h : Heap K V} {pv nx : Ptr} {l : List (Cell K V)} {c : Cell K V}
    (hs : Seg h pv (l ++ [c]) nx) :
    h[c.ptr]? = some { key := c.key, value := c.value, prev := lastPtr l pv, next := nx } := by
  rw [seg_append] at hs
  exact hs.2.1

/-- The node at any address of a stretch stores the key and value of its cell. -/
theorem seg_mem {h : Heap K V} {pv nx : Ptr} {l : List (Cell K V)}
    (hs : Seg h pv l nx) {c : Cell K V} (hc : c ∈ l) :
    ∃ n, h[c.ptr]? = some n ∧ n.key = c.key ∧ n.value = c.value := by
  obtain ⟨l1, l2, rfl⟩ := List.append_of_mem hc
  rw [seg_append] at hs
  exact ⟨_, hs.2.1, rfl, rfl⟩

/-! ## The statements of `moveToFront`, one by one -/

theorem heap_lt {h : Heap K V} {i : Nat} {n : Node K V} (hi : h[i]? = some n) :
    i < h.length :=
  (List.getElem?_eq_some.1 hi).1

theorem unlinkPrev_none {h : Heap K V} {x : Nat} {n : Node K V}
    (hx : h[x]? = some n) (hp : n.prev = none) : unlinkPrev h (some x) = some h := by
  simp [unlinkPrev, Heap.read, hx, hp]

theorem unlinkPrev_some {h : Heap K V} {x a : Nat} {n an : Node K V}
    (hx : h[x]? = some n) (hp : n.prev = some a) (ha : h[a]? = some an) :
    unlinkPrev h (some x) = some (h.set a { an with next := n.next }) := by
  simp [unlinkPrev, Heap.read, hx, hp, ha]

theorem unlinkNext_none {h : Heap K V} {x : Nat} {n : Node K V}
    (hx : h[x]? = some n) (hp : n.next = none) : unlinkNext h (some x) = some h := by
  simp [unlinkNext, Heap.read, hx, hp]

theorem unlinkNext_some {h : Heap K V} {x b : Nat} {n bn : Node K V}
    (hx : h[x]? = some n) (hp : n.next = some b) (hb : h[b]? = some bn) :
    unlinkNext h (some x) = some (h.set b { bn with prev := n.prev }) := by
  simp [unlinkNext, Heap.read, hx, hp, hb]

theorem relinkFront_some {h : Heap K V} {x : Nat} {n : Node K V} (hd : Ptr)
    (hx : h[x]? = some n) :
    relinkFront h hd (some x) = some (h.set x { n with next := hd, prev := none }) := by
  simp [relinkFront, hx, List.getElem?_set, heap_lt hx]

theorem linkHead_none (h : Heap K V) (node : Ptr) : linkHead h none node = some h := rfl

theorem linkHead_some {h : Heap K V} {j : Nat} {hn : Node K V} (node : Ptr)
    (hj : h[j]? = some hn) :
    linkHead h (some j) node = some (h.set j { hn with prev := node }) := by
  simp [linkHead, hj]

theorem lastPtr_mem {l : List (Cell K V)} (hl : l ≠ []) (d : Ptr) :
    ∃ p, lastPtr l d = some p ∧ p ∈ ptrs l := by
  rcases List.eq_nil_or_concat l with rfl | ⟨l0, c, rfl⟩
  · exact absurd rfl hl
  · exact ⟨c.ptr, by simp [lastPtr_concat], by simp [ptrs]⟩

theorem lastPtr_ne_nil {l : List (Cell K V)} (hl : l ≠ []) (d e : Ptr) :
    lastPtr l d = lastPtr l e := by
  cases l with
  | nil => exact absurd rfl hl
  | cons c r => rfl

theorem repr_fresh {cap : Nat} (hcap : 1 ≤ cap) :
    Repr (LRUCache.new cap : LRUCache K V) [] := by
  refine ⟨hcap, Nat.zero_le _, List.nodup_nil, List.nodup_nil, rfl, rfl, List.Perm.refl _,
    none, trivial, fun _ => rfl⟩

@[simp] theorem ptrs_nil : ptrs ([] : List (Cell K V)) = [] := rfl

@[simp] theorem ptrs_cons (c : Cell K V) (l : List (Cell K V)) :
    ptrs (c :: l) = c.ptr :: ptrs l := rfl

@[simp] theorem ptrs_append (l1 l2 : List (Cell K V)) :
    ptrs (l1 ++ l2) = ptrs l1 ++ ptrs l2 := by
  simp [ptrs]

@[simp] theorem cellKeys_nil : cellKeys ([] : List (Cell K V)) = [] := rfl

@[simp] theorem cellKeys_cons (c : Cell K V) (l : List (Cell K V)) :
    cellKeys (c :: l) = c.key :: cellKeys l := rfl

@[simp] theorem cellKeys_append (l1 l2 : List (Cell K V)) :
    cellKeys (l1 ++ l2) = cellKeys l1 ++ cellKeys l2 := by
  simp [cellKeys]

theorem firstPtr_cons (c : Cell K V) (l : List (Cell K V)) (d : Ptr) :
    firstPtr (c :: l) d = some c.ptr := rfl

theorem firstPtr_append_of_ne_nil {l1 : List (Cell K V)} (hl : l1 ≠ [])
    (l2 : List (Cell K V)) (d e : Ptr) : firstPtr (l1 ++ l2) d = firstPtr l1 e := by
  cases l1 with
  | nil => exact absurd rfl hl
  | cons c r => rfl

theorem lastPtr_some_ne_none (l : List (Cell K V)) (p : Nat) : lastPtr l (some p) ≠ none := by
  induction l generalizing p with
  | nil => simp [lastPtr]
  | cons c r ih => exact ih c.ptr

/-- Promotion of an entry that is not the front: the chain `l1 ++ x :: l2` becomes
`x :: (l1 ++ l2)`, and nothing else changes. -/
theorem moveToFront_mid {s : LRUCache K V} {l1 l2 : List (Cell K V)} {x : Cell K V}
    (hr : Repr s (l1 ++ x :: l2)) (hne : l1 ≠ []) :
    ∃ s1, moveToFront s (some x.ptr) = some s1 ∧ Repr s1 (x :: (l1 ++ l2)) ∧
      s1.cache = s.cache ∧ s1.capacity = s.capacity := by
  obtain ⟨hcap, hbound, hpn, hkn, hhead, htail, hidx, nx, hseg, hnx⟩ := hr
  have hlen : 2 ≤ (l1 ++ x :: l2).length := by
    cases l1 with
    | nil => exact absurd rfl hne
    | cons c r => simp only [List.cons_append, List.length_cons, List.length_append]; omega
  have hnx1 : nx = none := hnx (le_trans hlen hbound)
  subst hnx1
  obtain ⟨l0, a, rfl⟩ : ∃ l0 a, l1 = l0 ++ [a] := by
    rcases List.eq_nil_or_concat l1 with h | ⟨l0, a, h⟩
    · exact absurd h hne
    · exact ⟨l0, a, by simpa using h⟩
  -- the facts about addresses
  have hpn2 : (ptrs (x :: ((l0 ++ [a]) ++ l2))).Nodup := by
    have := List.nodup_middle.1 (by simpa using hpn : (ptrs (l0 ++ [a]) ++ x.ptr :: ptrs l2).Nodup)
    simpa using this
  have hxnot : x.ptr ∉ ptrs ((l0 ++ [a]) ++ l2) := (List.nodup_cons.1 hpn2).1
  have hpn3 : (ptrs ((l0 ++ [a]) ++ l2)).Nodup := (List.nodup_cons.1 hpn2).2
  have hpnA : (ptrs (l0 ++ [a])).Nodup := by
    rw [ptrs_append] at hpn3; exact (List.nodup_append.1 hpn3).1
  have hpnB : (ptrs l2).Nodup := by
    rw [ptrs_append] at hpn3; exact (List.nodup_append.1 hpn3).2.1
  have hdisj : ∀ p, p ∈ ptrs (l0 ++ [a]) → p ∉ ptrs l2 := by
    rw [ptrs_append] at hpn3
    intro p hp hq; exact (List.nodup_append.1 hpn3).2.2 hp hq
  have hax : a.ptr ≠ x.ptr := by
    rintro h; exact hxnot (by rw [← h]; simp)
  have hanot : a.ptr ∉ ptrs l2 := hdisj _ (by simp)
  -- split the stretch at `x`
  rw [seg_append, seg_cons] at hseg
  obtain ⟨hA, hX, hB⟩ := hseg
  simp only [firstPtr_cons, lastPtr_concat] at hA hX hB
  have hAlast := seg_last hA
  -- `if (node->prev) node->prev->next = node->next;`
  have e1 := unlinkPrev_some hX rfl hAlast
  simp only at e1
  have hA1 := seg_set_next hpnA hA (firstPtr l2 none)
  have hX1 : (s.heap.set a.ptr (Node.mk a.key a.value (lastPtr l0 none) (firstPtr l2 none)))[x.ptr]?
      = some (Node.mk x.key x.value (some a.ptr) (firstPtr l2 none)) := by
    rw [List.getElem?_set_ne hax]; exact hX
  have hB1 : Seg (s.heap.set a.ptr (Node.mk a.key a.value (lastPtr l0 none) (firstPtr l2 none)))
      (some x.ptr) l2 none := seg_set_frame _ hanot hB
  -- `if (node->next) node->next->prev = node->prev;` and `if (node == tail) tail = node->prev;`
  obtain ⟨h2, e2, hS2, hX2, e3⟩ : ∃ h2,
      unlinkNext (s.heap.set a.ptr (Node.mk a.key a.value (lastPtr l0 none) (firstPtr l2 none)))
        (some x.ptr) = some h2 ∧
      Seg h2 none ((l0 ++ [a]) ++ l2) none ∧
      h2[x.ptr]? = some (Node.mk x.key x.value (some a.ptr) (firstPtr l2 none)) ∧
      retarget h2 s.tail (some x.ptr) = some (lastPtr ((l0 ++ [a]) ++ l2) none) := by
    cases l2 with
    | nil =>
      refine ⟨_, unlinkNext_none hX1 rfl, ?_, hX1, ?_⟩
      · simpa [firstPtr] using hA1
      · have ht : s.tail = some x.ptr := by
          rw [htail]; simp [lastPtr_append, lastPtr]
        simp [retarget, ht, Heap.read, hX1, lastPtr_concat]
    | cons b l3 =>
      have hb := hB1.1
      have hbA : b.ptr ∉ ptrs (l0 ++ [a]) := fun hmem => hdisj _ hmem (by simp)
      have hbx : b.ptr ≠ x.ptr := by
        rintro h; exact hxnot (by rw [← h]; simp)
      refine ⟨_, unlinkNext_some hX1 rfl hb, ?_, ?_, ?_⟩
      · rw [seg_append]
        refine ⟨seg_set_frame _ hbA hA1, ?_⟩
        rw [lastPtr_concat]
        exact seg_set_prev hpnB hB1 (some a.ptr)
      · rw [List.getElem?_set_ne hbx]; exact hX1
      · obtain ⟨p, hp, hpm⟩ := lastPtr_mem (List.cons_ne_nil b l3) (some x.ptr)
        have ht : s.tail = some p := by
          rw [htail, lastPtr_append]; simpa [lastPtr] using hp
        have hpx : x.ptr ≠ p := by
          rintro h; exact hxnot (by rw [h, ptrs_append]; exact List.mem_append_right _ hpm)
        have hl : lastPtr ((l0 ++ [a]) ++ b :: l3) none = some p := by
          rw [lastPtr_append, lastPtr_ne_nil (List.cons_ne_nil b l3) _ (some x.ptr)]; exact hp
        rw [hl]
        simp [retarget, ht, hpx]
  -- `node->next = head; node->prev = nullptr;`
  obtain ⟨c0, rest, hrest⟩ : ∃ c0 rest, (l0 ++ [a]) ++ l2 = c0 :: rest := by
    cases l0 with
    | nil => exact ⟨a, l2, rfl⟩
    | cons c r => exact ⟨c, (r ++ [a]) ++ l2, rfl⟩
  have hhead1 : s.head = some c0.ptr := by
    rw [hhead, firstPtr_append_of_ne_nil (by simp) _ none none,
      ← firstPtr_append_of_ne_nil (by simp) l2 none none, hrest]
    rfl
  have e4 := relinkFront_some (some c0.ptr) hX2
  simp only at e4
  rw [hrest] at hS2 hxnot hpn3
  have hS3 : Seg (h2.set x.ptr (Node.mk x.key x.value none (some c0.ptr))) none (c0 :: rest) none :=
    seg_set_frame _ hxnot hS2
  have hc0x : c0.ptr ≠ x.ptr := by
    rintro h; exact hxnot (by rw [← h]; simp)
  -- `if (head) head->prev = node;`
  have e5 := linkHead_some (some x.ptr) hS3.1
  simp only at e5
  have hS4 := seg_set_prev hpn3 hS3 (some x.ptr)
  have hX4 : ((h2.set x.ptr (Node.mk x.key x.value none (some c0.ptr))).set c0.ptr
      (Node.mk c0.key c0.value (some x.ptr) (firstPtr rest none)))[x.ptr]?
      = some (Node.mk x.key x.value none (some c0.ptr)) := by
    rw [List.getElem?_set_ne hc0x, List.getElem?_set_self (heap_lt hX2)]
  have hne_head : (some x.ptr : Ptr) ≠ some c0.ptr := by
    intro h; exact hc0x (Option.some.inj h).symm
  have htl : lastPtr (c0 :: rest) none ≠ none := lastPtr_some_ne_none rest c0.ptr
  refine ⟨{ s with
      heap := (h2.set x.ptr (Node.mk x.key x.value none (some c0.ptr))).set c0.ptr
        (Node.mk c0.key c0.value (some x.ptr) (firstPtr rest none))
      head := some x.ptr
      tail := lastPtr (c0 :: rest) none }, ?_, ?_, ?_, ?_⟩
  · simp only [moveToFront, hhead1, if_neg hne_head, e1, e2, e3, e4, e5, hrest,
      Option.bind_eq_bind, Option.some_bind, if_neg htl]
    rfl
  · refine ⟨hcap, ?_, hpn2, ?_, rfl, ?_, ?_, none, ?_, fun _ => rfl⟩
    · simpa [Nat.add_comm, Nat.add_left_comm, Nat.add_assoc] using hbound
    · have := List.nodup_middle.1
        (by simpa using hkn : (cellKeys (l0 ++ [a]) ++ x.key :: cellKeys l2).Nodup)
      simpa using this
    · rw [hrest]; rfl
    · exact hidx.trans (List.perm_middle.map _)
    · rw [hrest]
      exact ⟨hX4, hS4⟩
  · rfl
  · rfl

/-! ## The index -/

theorem find_eq_none_iff {m : Index K} {k : K} :
    Index.find m k = none ↔ k ∉ m.map Prod.fst := by
  induction m with
  | nil => simp [Index.find]
  | cons e r ih =>
    obtain ⟨k1, p1⟩ := e
    by_cases h : k1 = k
    · simp [Index.find, h]
    · have h1 : ¬ k = k1 := fun e => h e.symm
      simp [Index.find, h, h1, ih]

theorem find_eq_some_iff {m : Index K} (hnd : (m.map Prod.fst).Nodup) {k : K} {p : Ptr} :
    Index.find m k = some p ↔ (k, p) ∈ m := by
  induction m with
  | nil => simp [Index.find]
  | cons e r ih =>
    obtain ⟨k1, p1⟩ := e
    simp only [List.map_cons, List.nodup_cons] at hnd
    by_cases h : k1 = k
    · subst h
      have hno : (k1, p) ∉ r := fun hm => hnd.1 (List.mem_map_of_mem Prod.fst hm)
      simp [Index.find, hno, eq_comm]
    · have h1 : ¬ k = k1 := fun e => h e.symm
      simp [Index.find, h, h1, ih hnd.2]

theorem find_perm {m m1 : Index K} (hp : List.Perm m m1) (hnd : (m.map Prod.fst).Nodup)
    (k : K) : Index.find m k = Index.find m1 k := by
  have hnd1 : (m1.map Prod.fst).Nodup := (hp.map _).nodup_iff.1 hnd
  cases h : Index.find m1 k with
  | none =>
    rw [find_eq_none_iff] at h ⊢
    exact fun hm => h ((hp.map _).mem_iff.1 hm)
  | some p =>
    rw [find_eq_some_iff hnd1] at h
    rw [find_eq_some_iff hnd]
    exact hp.mem_iff.2 h

theorem idx_keys (l : List (Cell K V)) : (idx l).map Prod.fst = cellKeys l := by
  simp [idx, cellKeys]

theorem erase_of_not_mem {m : Index K} {k : K} (h : k ∉ m.map Prod.fst) :
    Index.erase m k = m := by
  unfold Index.erase
  rw [List.filter_eq_self]
  intro e he
  have : e.1 ≠ k := fun hk => h (hk ▸ List.mem_map_of_mem Prod.fst he)
  simpa using this

theorem idx_erase_last {l : List (Cell K V)} {t : Cell K V}
    (hnd : (cellKeys (l ++ [t])).Nodup) : Index.erase (idx (l ++ [t])) t.key = idx l := by
  have hnot : t.key ∉ cellKeys l := by
    rw [cellKeys_append] at hnd
    intro hm
    exact (List.nodup_append.1 hnd).2.2 hm (by simp)
  have h1 : Index.erase (idx l) t.key = idx l :=
    erase_of_not_mem (by rw [idx_keys]; exact hnot)
  unfold Index.erase at h1 ⊢
  simp only [idx, List.map_append, List.filter_append, List.map_cons, List.map_nil] at h1 ⊢
  rw [h1]
  simp

theorem repr_keys_nodup {s : LRUCache K V} {l : List (Cell K V)} (hr : Repr s l) :
    (s.cache.map Prod.fst).Nodup := by
  have := (hr.index.map Prod.fst).nodup_iff.2 (by rw [idx_keys]; exact hr.keys_nodup)
  exact this

theorem repr_find_mem {s : LRUCache K V} {l : List (Cell K V)} (hr : Repr s l)
    {c : Cell K V} (hc : c ∈ l) : Index.find s.cache c.key = some (some c.ptr) := by
  rw [find_eq_some_iff (repr_keys_nodup hr)]
  exact hr.index.mem_iff.2 (List.mem_map_of_mem (fun c => (c.key, some c.ptr)) hc)

theorem repr_find_not {s : LRUCache K V} {l : List (Cell K V)} (hr : Repr s l)
    {k : K} (hk : k ∉ cellKeys l) : Index.find s.cache k = none := by
  rw [find_eq_none_iff]
  intro hm
  exact hk (by rw [← idx_keys]; exact (hr.index.map Prod.fst).mem_iff.1 hm)

theorem repr_keys_perm {s : LRUCache K V} {l : List (Cell K V)} (hr : Repr s l) :
    List.Perm (keys s) (cellKeys l) := by
  have := hr.index.map Prod.fst
  rwa [idx_keys] at this

theorem repr_size {s : LRUCache K V} {l : List (Cell K V)} (hr : Repr s l) :
    size s = l.length := by
  have := hr.index.length_eq
  simpa [size, idx] using this

/-- The node of a cell of the recency list. -/
theorem repr_read {s : LRUCache K V} {l : List (Cell K V)} (hr : Repr s l)
    {c : Cell K V} (hc : c ∈ l) :
    ∃ n, s.heap[c.ptr]? = some n ∧ n.key = c.key ∧ n.value = c.value := by
  obtain ⟨nx, hseg, -⟩ := hr.seg
  exact seg_mem hseg hc

theorem repr_valueOf_mem {s : LRUCache K V} {l : List (Cell K V)} (hr : Repr s l)
    {c : Cell K V} (hc : c ∈ l) : valueOf s c.key = some c.value := by
  obtain ⟨n, hn, -, hv⟩ := repr_read hr hc
  simp [valueOf, repr_find_mem hr hc, Heap.read, hn, hv]

theorem repr_valueOf_not {s : LRUCache K V} {l : List (Cell K V)} (hr : Repr s l)
    {k : K} (hk : k ∉ cellKeys l) : valueOf s k = none := by
  simp [valueOf, repr_find_not hr hk]

/-! ## Promotion -/

/-- Promotion of any entry of the recency list `l1 ++ x :: l2` yields
`x :: (l1 ++ l2)`; the index and the capacity are untouched. -/
theorem moveToFront_repr {s : LRUCache K V} {l1 l2 : List (Cell K V)} {x : Cell K V}
    (hr : Repr s (l1 ++ x :: l2)) :
    ∃ s1, moveToFront s (some x.ptr) = some s1 ∧ Repr s1 (x :: (l1 ++ l2)) ∧
      s1.cache = s.cache ∧ s1.capacity = s.capacity := by
  cases l1 with
  | nil =>
    refine ⟨s, ?_, hr, rfl, rfl⟩
    have : s.head = some x.ptr := hr.head_eq
    simp [moveToFront, this]
  | cons c r => exact moveToFront_mid hr (List.cons_ne_nil c r)

/-- A hit: `get` returns the stored value and promotes the entry. -/
theorem get_hit {s : LRUCache K V} {l1 l2 : List (Cell K V)} {x : Cell K V}
    (hr : Repr s (l1 ++ x :: l2)) :
    ∃ s1, get s x.key = some (s1, some x.value) ∧ Repr s1 (x :: (l1 ++ l2)) ∧
      s1.cache = s.cache ∧ s1.capacity = s.capacity := by
  obtain ⟨s1, hm, hr1, hc, hcap⟩ := moveToFront_repr hr
  refine ⟨s1, ?_, hr1, hc, hcap⟩
  obtain ⟨n, hn, -, hv⟩ := repr_read hr1 (List.mem_cons_self x _)
  have hf := repr_find_mem hr (c := x) (by simp)
  simp [get, hf, hm, Heap.read, hn, hv]

/-- A miss: `get` returns nothing and the state is the same. -/
theorem get_miss {s : LRUCache K V} {k : K} (hk : Index.find s.cache k = none) :
    get s k = some (s, none) := by
  simp [get, hk]

/-! ## Overwriting a value -/

/-- Writing the value of one node of a stretch changes that cell only. -/
theorem seg_set_value {h : Heap K V} {pv nx : Ptr} {l1 l2 : List (Cell K V)} {x : Cell K V}
    (hnd : (ptrs (l1 ++ x :: l2)).Nodup) (hs : Seg h pv (l1 ++ x :: l2) nx) (v : V) :
    Seg (h.set x.ptr (Node.mk x.key v (lastPtr l1 pv) (firstPtr l2 nx))) pv
      (l1 ++ { ptr := x.ptr, key := x.key, value := v } :: l2) nx := by
  rw [ptrs_append, ptrs_cons] at hnd
  have hmid := List.nodup_middle.1 hnd
  have hx1 : x.ptr ∉ ptrs l1 := fun hm => (List.nodup_cons.1 hmid).1 (List.mem_append_left _ hm)
  have hx2 : x.ptr ∉ ptrs l2 := fun hm => (List.nodup_cons.1 hmid).1 (List.mem_append_right _ hm)
  rw [seg_append, seg_cons] at hs ⊢
  obtain ⟨hA, hX, hB⟩ := hs
  refine ⟨seg_set_frame _ hx1 hA, ?_, seg_set_frame _ hx2 hB⟩
  simp [List.getElem?_set, heap_lt hX]

theorem storeValue_repr {s : LRUCache K V} {l1 l2 : List (Cell K V)} {x : Cell K V}
    (hr : Repr s (l1 ++ x :: l2)) (v : V) :
    ∃ h1, storeValue s.heap (some x.ptr) v = some h1 ∧
      Repr { s with heap := h1 } (l1 ++ { ptr := x.ptr, key := x.key, value := v } :: l2) := by
  obtain ⟨hcap, hbound, hpn, hkn, hhead, htail, hidx, nx, hseg, hnx⟩ := hr
  have hX : s.heap[x.ptr]? = some (Node.mk x.key x.value (lastPtr l1 none) (firstPtr l2 nx)) := by
    have := hseg
    rw [seg_append, seg_cons] at this
    exact this.2.1
  refine ⟨s.heap.set x.ptr (Node.mk x.key v (lastPtr l1 none) (firstPtr l2 nx)),
    by simp [storeValue, hX], hcap, ?_, ?_, ?_, ?_, ?_, ?_, nx, ?_, hnx⟩
  · simpa using hbound
  · simpa using hpn
  · simpa using hkn
  · rw [hhead]; cases l1 <;> rfl
  · rw [htail]; simp [lastPtr_append, lastPtr]
  · simpa [idx] using hidx
  · exact seg_set_value hpn hseg v

/-- An overwrite: `put` on a present key stores the value and promotes the entry. -/
theorem put_hit {s : LRUCache K V} {l1 l2 : List (Cell K V)} {x : Cell K V}
    (hr : Repr s (l1 ++ x :: l2)) (v : V) :
    ∃ s1, put s x.key v = some s1 ∧
      Repr s1 ({ ptr := x.ptr, key := x.key, value := v } :: (l1 ++ l2)) ∧
      s1.cache = s.cache ∧ s1.capacity = s.capacity := by
  obtain ⟨h1, hst, hr1⟩ := storeValue_repr hr v
  obtain ⟨s1, hm, hr2, hc, hcap⟩ := moveToFront_repr hr1
  refine ⟨s1, ?_, hr2, hc, hcap⟩
  have hf := repr_find_mem hr (c := x) (by simp)
  simp only [put, hf, hst, Option.bind_eq_bind, Option.some_bind]
  exact hm

/-! ## Linking a new node -/

theorem moveToFront_new_none {s : LRUCache K V} {q : Nat} {k : K} {v : V}
    (hq : s.heap[q]? = some (Node.mk k v none none)) (hhd : s.head = none)
    (htl : s.tail ≠ some q) :
    moveToFront s (some q) = some { s with
      heap := s.heap.set q (Node.mk k v none none)
      head := some q
      tail := if s.tail = none then some q else s.tail } := by
  have e1 := unlinkPrev_none hq rfl
  have e2 := unlinkNext_none hq rfl
  have e3 : retarget s.heap s.tail (some q) = some s.tail := by
    simp [retarget, Ne.symm htl]
  have e4 := relinkFront_some none hq
  simp only at e4
  simp only [moveToFront, hhd, e1, e2, e3, e4, linkHead_none, Option.bind_eq_bind,
    Option.some_bind]
  simp

theorem moveToFront_new_some {s : LRUCache K V} {q j : Nat} {k : K} {v : V} {hn : Node K V}
    (hq : s.heap[q]? = some (Node.mk k v none none)) (hhd : s.head = some j)
    (hj : s.heap[j]? = some hn) (hqj : q ≠ j) (htl : s.tail ≠ some q) :
    moveToFront s (some q) = some { s with
      heap := (s.heap.set q (Node.mk k v none (some j))).set j { hn with prev := some q }
      head := some q
      tail := if s.tail = none then some q else s.tail } := by
  have e1 := unlinkPrev_none hq rfl
  have e2 := unlinkNext_none hq rfl
  have e3 : retarget s.heap s.tail (some q) = some s.tail := by
    simp [retarget, Ne.symm htl]
  have e4 := relinkFront_some (some j) hq
  simp only at e4
  have hj1 : (s.heap.set q (Node.mk k v none (some j)))[j]? = some hn := by
    rw [List.getElem?_set_ne hqj]; exact hj
  have e5 := linkHead_some (some q) hj1
  have hne : (some q : Ptr) ≠ some j := fun h => hqj (Option.some.inj h)
  simp only [moveToFront, hhd, if_neg hne, e1, e2, e3, e4, e5, Option.bind_eq_bind,
    Option.some_bind]
  rfl

/-- Linking a freshly allocated node in front of a recency list that has room. -/
theorem push_repr {s : LRUCache K V} {l : List (Cell K V)} (hr : Repr s l)
    (hlt : l.length < s.capacity) {k : K} (hk : k ∉ cellKeys l) (v : V) :
    ∃ s2, moveToFront
        { capacity := s.capacity, cache := Index.assign s.cache k (some s.heap.length),
          head := s.head, tail := s.tail, heap := s.heap ++ [Node.init k v] }
        (some s.heap.length) = some s2 ∧
      Repr s2 ({ ptr := s.heap.length, key := k, value := v } :: l) ∧
      s2.capacity = s.capacity := by
  obtain ⟨hcap, hbound, hpn, hkn, hhead, htail, hidx, nx, hseg, hnx⟩ := hr
  have hlt_ptr : ∀ p ∈ ptrs l, p < s.heap.length := fun p hp => seg_lt hseg hp
  have hqnot : s.heap.length ∉ ptrs l := fun hm => Nat.lt_irrefl _ (hlt_ptr _ hm)
  have hseg1 : Seg (s.heap ++ [Node.init k v]) none l nx :=
    seg_frame (fun p hp => List.getElem?_append_left (hlt_ptr p hp)) hseg
  have hq : (s.heap ++ [Node.init k v])[s.heap.length]? = some (Node.mk k v none none) :=
    List.getElem?_concat_length _ _
  have hqlt : s.heap.length < (s.heap ++ [Node.init k v]).length := by simp
  have hkc : k ∉ s.cache.map Prod.fst := by
    intro hm
    exact hk (by rw [← idx_keys]; exact (hidx.map Prod.fst).mem_iff.1 hm)
  have hidx1 : List.Perm (Index.assign s.cache k (some s.heap.length))
      (idx ({ ptr := s.heap.length, key := k, value := v } :: l)) := by
    unfold Index.assign
    rw [erase_of_not_mem hkc]
    exact List.Perm.cons _ hidx
  have hpn1 : (ptrs ({ ptr := s.heap.length, key := k, value := v } :: l)).Nodup :=
    List.nodup_cons.2 ⟨hqnot, hpn⟩
  have hkn1 : (cellKeys ({ ptr := s.heap.length, key := k, value := v } :: l)).Nodup :=
    List.nodup_cons.2 ⟨hk, hkn⟩
  cases l with
  | nil =>
    have htl : s.tail = none := htail
    have hm := moveToFront_new_none
      (s := { capacity := s.capacity, cache := Index.assign s.cache k (some s.heap.length),
              head := s.head, tail := s.tail, heap := s.heap ++ [Node.init k v] })
      hq hhead (by simp [htl])
    refine ⟨_, hm, ⟨hcap, hlt, hpn1, hkn1, rfl, ?_, hidx1, none, ?_, fun _ => rfl⟩, rfl⟩
    · simp [htl, lastPtr]
    · exact ⟨by simp [List.getElem?_set, firstPtr], trivial⟩
  | cons c0 rest =>
    have hc0 := hseg1.1
    have hc0q : s.heap.length ≠ c0.ptr := fun h => hqnot (by rw [h]; simp)
    have htl : s.tail ≠ some s.heap.length := by
      obtain ⟨p, hp, hpm⟩ := lastPtr_mem (List.cons_ne_nil c0 rest) none
      rw [htail, hp]
      intro h
      exact hqnot (by rw [← Option.some.inj h]; exact hpm)
    have htn : s.tail ≠ none := by
      rw [htail]; exact lastPtr_some_ne_none rest c0.ptr
    have hm := moveToFront_new_some
      (s := { capacity := s.capacity, cache := Index.assign s.cache k (some s.heap.length),
              head := s.head, tail := s.tail, heap := s.heap ++ [Node.init k v] })
      hq hhead hc0 hc0q htl
    refine ⟨_, hm, ⟨hcap, hlt, hpn1, hkn1, rfl, ?_, hidx1, nx, ?_, hnx⟩, rfl⟩
    · rw [htail] at htn
      simp only [htail, if_neg htn]; rfl
    · have hS := seg_set_frame (Node.mk k v none (some c0.ptr)) hqnot hseg1
      have hS1 := seg_set_prev hpn hS (some s.heap.length)
      refine ⟨?_, hS1⟩
      simp only
      rw [List.getElem?_set_ne (Ne.symm hc0q), List.getElem?_set_self hqlt]
      rfl

/-! ## Eviction -/

theorem evict_room {s : LRUCache K V} (h : s.cache.length < s.capacity) : evict s = some s := by
  have : ¬ s.cache.length ≥ s.capacity := Nat.not_le.2 h
  simp [evict, this]

/-- Eviction from a full list of at least two entries drops the last one. -/
theorem evict_repr {s : LRUCache K V} {l0 : List (Cell K V)} {u t : Cell K V}
    (hr : Repr s ((l0 ++ [u]) ++ [t])) (hfull : s.capacity ≤ ((l0 ++ [u]) ++ [t]).length) :
    ∃ s1, evict s = some s1 ∧ Repr s1 (l0 ++ [u]) ∧ s1.capacity = s.capacity ∧
      s1.cache = Index.erase s.cache t.key := by
  have hsz := repr_size hr
  obtain ⟨hcap, hbound, hpn, hkn, hhead, htail, hidx, nx, hseg, hnx⟩ := hr
  have hlen : 2 ≤ ((l0 ++ [u]) ++ [t]).length := by simp
  have hnx1 : nx = none := hnx (le_trans hlen hbound)
  subst hnx1
  have hT := seg_last hseg
  rw [lastPtr_concat] at hT
  have hA : Seg s.heap none (l0 ++ [u]) (some t.ptr) := ((seg_append _ _ _ _ _).1 hseg).1
  have hU := seg_last hA
  have hpnA : (ptrs (l0 ++ [u])).Nodup := by
    rw [ptrs_append] at hpn; exact (List.nodup_append.1 hpn).1
  have hknA : (cellKeys (l0 ++ [u])).Nodup := by
    rw [cellKeys_append] at hkn; exact (List.nodup_append.1 hkn).1
  have hge : s.cache.length ≥ s.capacity := by
    have : s.cache.length = ((l0 ++ [u]) ++ [t]).length := hsz
    omega
  have htl : s.tail = some t.ptr := by rw [htail, lastPtr_concat]
  refine ⟨{ s with
      cache := Index.erase s.cache t.key
      tail := some u.ptr
      heap := s.heap.set u.ptr (Node.mk u.key u.value (lastPtr l0 none) none) }, ?_, ?_, rfl, rfl⟩
  · simp [evict, hge, htl, Heap.read, hT, hU]
  · refine ⟨hcap, ?_, hpnA, hknA, ?_, ?_, ?_, none, seg_set_next hpnA hA none, fun _ => rfl⟩
    · have : (l0 ++ [u]).length ≤ ((l0 ++ [u]) ++ [t]).length := by simp
      exact le_trans this hbound
    · show s.head = _
      rw [hhead]
      exact firstPtr_append_of_ne_nil (by simp) _ _ _
    · show some u.ptr = _
      rw [lastPtr_concat]
    · show List.Perm (Index.erase s.cache t.key) _
      rw [← idx_erase_last hkn]
      exact hidx.filter _

/-- Eviction from a one-entry cache of capacity 1: the index is emptied and `tail`
is reset, while `head` and the heap stay as they are. -/
theorem evict_single {s : LRUCache K V} {t : Cell K V} (hr : Repr s [t])
    (hcap1 : s.capacity = 1) :
    evict s = some { s with cache := [], tail := none } := by
  have hsz := repr_size hr
  obtain ⟨hcap, hbound, hpn, hkn, hhead, htail, hidx, nx, hseg, hnx⟩ := hr
  have hT : s.heap[t.ptr]? = some (Node.mk t.key t.value none nx) := hseg.1
  have hge : s.cache.length ≥ s.capacity := by
    have : s.cache.length = 1 := hsz
    omega
  have htl : s.tail = some t.ptr := htail
  have he : Index.erase s.cache t.key = [] := by
    have h1 : List.Perm (Index.erase s.cache t.key) (Index.erase (idx [t]) t.key) :=
      hidx.filter _
    have h2 : Index.erase (idx [t]) t.key = [] := by
      simp [Index.erase, idx]
    rw [h2] at h1
    exact List.Perm.eq_nil h1
  simp [evict, hge, htl, Heap.read, hT, he]

/-- An insertion: `put` on an absent key evicts the last entry when the cache is full
and links a new node in front. -/
theorem put_miss {s : LRUCache K V} {l : List (Cell K V)} (hr : Repr s l)
    {k : K} (hk : k ∉ cellKeys l) (v : V) :
    ∃ s2 q, put s k v = some s2 ∧
      Repr s2 ({ ptr := q, key := k, value := v } ::
        (if s.capacity ≤ l.length then l.dropLast else l)) ∧
      s2.capacity = s.capacity := by
  have hf := repr_find_not hr hk
  have hsz : s.cache.length = l.length := repr_size hr
  by_cases hfull : s.capacity ≤ l.length
  · rw [if_pos hfull]
    have hpos : 0 < l.length := lt_of_lt_of_le hr.cap_pos hfull
    rcases List.eq_nil_or_concat l with rfl | ⟨l1, t, rfl⟩
    · simp at hpos
    rw [List.concat_eq_append] at hr hk hfull hsz ⊢
    rw [List.dropLast_concat]
    have hk1 : k ∉ cellKeys l1 := by
      intro hm; exact hk (by rw [cellKeys_append]; exact List.mem_append_left _ hm)
    rcases List.eq_nil_or_concat l1 with rfl | ⟨l0, u, rfl⟩
    · -- capacity 1: the evicted node stays linked behind the new front
      have hcap1 : s.capacity = 1 := by
        have h1 := hr.cap_pos
        simp at hfull
        omega
      have hev := evict_single hr hcap1
      obtain ⟨hcap, hbound, hpn, hkn, hhead, htail, hidx, nx, hseg, hnx⟩ := hr
      have hT : s.heap[t.ptr]? = some (Node.mk t.key t.value none nx) := hseg.1
      have hTlt := heap_lt hT
      have hq : (s.heap ++ [Node.init k v])[s.heap.length]? = some (Node.mk k v none none) :=
        List.getElem?_concat_length _ _
      have hT1 : (s.heap ++ [Node.init k v])[t.ptr]? = some (Node.mk t.key t.value none nx) := by
        rw [List.getElem?_append_left hTlt]; exact hT
      have hm := moveToFront_new_some
        (s := { capacity := s.capacity, cache := Index.assign [] k (some s.heap.length),
                head := s.head, tail := none, heap := s.heap ++ [Node.init k v] })
        hq hhead hT1 (Nat.ne_of_gt hTlt) (by simp)
      have hput : put s k v = moveToFront
          { capacity := s.capacity, cache := Index.assign [] k (some s.heap.length),
            head := s.head, tail := none, heap := s.heap ++ [Node.init k v] }
          (some s.heap.length) := by
        simp only [put, hf, hev, Option.bind_eq_bind, Option.some_bind]
      rw [hm] at hput
      refine ⟨_, s.heap.length, hput, ?_, ?_⟩
      · refine ⟨hcap, by simp [hcap1], by simp, by simp, rfl, rfl, ?_, some t.ptr, ?_, ?_⟩
        · simp [Index.assign, Index.erase, idx]
        · refine ⟨?_, trivial⟩
          simp only
          rw [List.getElem?_set_ne (Nat.ne_of_lt hTlt), List.getElem?_set_self (by simp)]
          rfl
        · intro h2
          have h3 : 2 ≤ s.capacity := h2
          omega
      · rfl
    · rw [List.concat_eq_append] at hr hk hfull hsz hk1 ⊢
      obtain ⟨s1, hev, hr1, hc1, -⟩ := evict_repr hr hfull
      have hlt : (l0 ++ [u]).length < s1.capacity := by
        have := hr.bound
        rw [hc1]
        simp at this ⊢
        omega
      obtain ⟨s2, hm, hr2, hc2⟩ := push_repr hr1 hlt hk1 v
      refine ⟨s2, s1.heap.length, ?_, hr2, hc2.trans hc1⟩
      simp only [put, hf, hev, Option.bind_eq_bind, Option.some_bind]
      exact hm
  · rw [if_neg hfull]
    have hlt : l.length < s.capacity := Nat.not_le.1 hfull
    have hev := evict_room (s := s) (by rw [hsz]; exact hlt)
    obtain ⟨s2, hm, hr2, hc2⟩ := push_repr hr hlt hk v
    refine ⟨s2, s.heap.length, ?_, hr2, hc2⟩
    simp only [put, hf, hev, Option.bind_eq_bind, Option.some_bind]
    exact hm

/-! ## From cells to the model -/

@[simp] theorem kv_nil : kv ([] : List (Cell K V)) = [] := rfl

@[simp] theorem kv_cons (c : Cell K V) (l : List (Cell K V)) :
    kv (c :: l) = (c.key, c.value) :: kv l := rfl

@[simp] theorem kv_append (l1 l2 : List (Cell K V)) : kv (l1 ++ l2) = kv l1 ++ kv l2 := by
  simp [kv]

theorem kv_keys (l : List (Cell K V)) : (kv l).map Prod.fst = cellKeys l := by
  simp [kv, cellKeys]

theorem kv_length (l : List (Cell K V)) : (kv l).length = l.length := by
  simp [kv]

theorem lookup_eq_none_iff {m : List (K × V)} {k : K} :
    Model.lookup m k = none ↔ k ∉ m.map Prod.fst := by
  induction m with
  | nil => simp [Model.lookup]
  | cons e r ih =>
    obtain ⟨k1, v1⟩ := e
    by_cases h : k1 = k
    · simp [Model.lookup, h]
    · have h1 : ¬ k = k1 := fun e => h e.symm
      simp [Model.lookup, h, h1, ih]

theorem lookup_eq_some_iff {m : List (K × V)} (hnd : (m.map Prod.fst).Nodup) {k : K} {v : V} :
    Model.lookup m k = some v ↔ (k, v) ∈ m := by
  induction m with
  | nil => simp [Model.lookup]
  | cons e r ih =>
    obtain ⟨k1, v1⟩ := e
    simp only [List.map_cons, List.nodup_cons] at hnd
    by_cases h : k1 = k
    · subst h
      have hno : (k1, v) ∉ r := fun hm => hnd.1 (List.mem_map_of_mem Prod.fst hm)
      simp [Model.lookup, hno, eq_comm]
    · have h1 : ¬ k = k1 := fun e => h e.symm
      simp [Model.lookup, h, h1, ih hnd.2]

theorem remove_of_not_mem {m : List (K × V)} {k : K} (h : k ∉ m.map Prod.fst) :
    Model.remove m k = m := by
  unfold Model.remove
  rw [List.filter_eq_self]
  intro e he
  have : e.1 ≠ k := fun hk => h (hk ▸ List.mem_map_of_mem Prod.fst he)
  simpa using this

theorem remove_middle {m1 m2 : List (K × V)} {k : K} {v : V}
    (hnd : ((m1 ++ (k, v) :: m2).map Prod.fst).Nodup) :
    Model.remove (m1 ++ (k, v) :: m2) k = m1 ++ m2 := by
  rw [List.map_append, List.map_cons] at hnd
  have hmid := List.nodup_cons.1 (List.nodup_middle.1 hnd)
  have h1 : k ∉ m1.map Prod.fst := fun hm => hmid.1 (List.mem_append_left _ hm)
  have h2 : k ∉ m2.map Prod.fst := fun hm => hmid.1 (List.mem_append_right _ hm)
  have e1 := remove_of_not_mem h1
  have e2 := remove_of_not_mem h2
  unfold Model.remove at e1 e2 ⊢
  rw [List.filter_append, e1, List.filter_cons, e2]
  simp

theorem mem_cellKeys_split {l : List (Cell K V)} {k : K} (hk : k ∈ cellKeys l) :
    ∃ l1 x l2, l = l1 ++ x :: l2 ∧ x.key = k := by
  obtain ⟨x, hx, rfl⟩ := List.mem_map.1 hk
  obtain ⟨l1, l2, rfl⟩ := List.append_of_mem hx
  exact ⟨l1, x, l2, rfl, rfl⟩

/-! ## What a state shows of its model -/

theorem abs_nodup {s : LRUCache K V} {m : List (K × V)} (ha : Abs s m) :
    (m.map Prod.fst).Nodup := by
  obtain ⟨l, hr, rfl⟩ := ha
  rw [kv_keys]; exact hr.keys_nodup

theorem abs_bound {s : LRUCache K V} {m : List (K × V)} (ha : Abs s m) :
    m.length ≤ s.capacity := by
  obtain ⟨l, hr, rfl⟩ := ha
  rw [kv_length]; exact hr.bound

theorem abs_size {s : LRUCache K V} {m : List (K × V)} (ha : Abs s m) :
    size s = m.length := by
  obtain ⟨l, hr, rfl⟩ := ha
  rw [kv_length]; exact repr_size hr

theorem abs_keys {s : LRUCache K V} {m : List (K × V)} (ha : Abs s m) :
    List.Perm (keys s) (m.map Prod.fst) := by
  obtain ⟨l, hr, rfl⟩ := ha
  rw [kv_keys]; exact repr_keys_perm hr

theorem abs_mem_keys {s : LRUCache K V} {m : List (K × V)} (ha : Abs s m) (k : K) :
    k ∈ keys s ↔ k ∈ m.map Prod.fst :=
  (abs_keys ha).mem_iff

theorem abs_find_none {s : LRUCache K V} {m : List (K × V)} (ha : Abs s m) (k : K) :
    Index.find s.cache k = none ↔ k ∉ m.map Prod.fst := by
  rw [find_eq_none_iff]
  exact not_congr (abs_mem_keys ha k)

theorem abs_valueOf {s : LRUCache K V} {m : List (K × V)} (ha : Abs s m) (k : K) :
    valueOf s k = Model.lookup m k := by
  obtain ⟨l, hr, rfl⟩ := ha
  by_cases hk : k ∈ cellKeys l
  · obtain ⟨l1, x, l2, rfl, rfl⟩ := mem_cellKeys_split hk
    rw [repr_valueOf_mem hr (by simp)]
    symm
    rw [lookup_eq_some_iff (by rw [kv_keys]; exact hr.keys_nodup)]
    simp
  · rw [repr_valueOf_not hr hk]
    symm
    rw [lookup_eq_none_iff, kv_keys]
    exact hk

/-- The node `head` points to is the first pair of the model, with no `prev`. -/
theorem abs_head {s : LRUCache K V} {k : K} {v : V} {r : List (K × V)}
    (ha : Abs s ((k, v) :: r)) :
    ∃ n, s.heap.read s.head = some n ∧ n.key = k ∧ n.value = v ∧ n.prev = none := by
  obtain ⟨l, hr, hl⟩ := ha
  cases l with
  | nil => simp at hl
  | cons c l1 =>
    simp only [kv_cons, List.cons.injEq, Prod.mk.injEq] at hl
    obtain ⟨⟨rfl, rfl⟩, -⟩ := hl
    obtain ⟨nx, hseg, -⟩ := hr.seg
    refine ⟨Node.mk c.key c.value none (firstPtr l1 nx), ?_, rfl, rfl, rfl⟩
    rw [hr.head_eq]
    exact hseg.1

/-- The node `tail` points to is the last pair of the model. -/
theorem abs_tail {s : LRUCache K V} {k : K} {v : V} {r : List (K × V)}
    (ha : Abs s (r ++ [(k, v)])) :
    ∃ n, s.heap.read s.tail = some n ∧ n.key = k ∧ n.value = v := by
  obtain ⟨l, hr, hl⟩ := ha
  rcases List.eq_nil_or_concat l with rfl | ⟨l1, c, rfl⟩
  · simp at hl
  · rw [List.concat_eq_append] at hr hl
    rw [kv_append] at hl
    have h2 := List.append_inj_right' hl (by simp)
    simp only [kv_cons, kv_nil, List.cons.injEq, Prod.mk.injEq, and_true] at h2
    obtain ⟨rfl, rfl⟩ := h2
    obtain ⟨nx, hseg, -⟩ := hr.seg
    refine ⟨Node.mk c.key c.value (lastPtr l1 none) nx, ?_, rfl, rfl⟩
    rw [hr.tail_eq, lastPtr_concat]
    exact seg_last hseg

theorem abs_fresh {cap : Nat} (hcap : 1 ≤ cap) :
    Abs (LRUCache.new cap : LRUCache K V) [] :=
  ⟨[], repr_fresh hcap, rfl⟩

/-! ## The calls against the model -/

/-- The method `get` does what the model does. -/
theorem get_abs {s : LRUCache K V} {m : List (K × V)} (ha : Abs s m) (k : K) :
    ∃ s1, get s k = some (s1, (Model.get m k).1) ∧ Abs s1 (Model.get m k).2 ∧
      s1.capacity = s.capacity := by
  obtain ⟨l, hr, rfl⟩ := ha
  by_cases hk : k ∈ cellKeys l
  · obtain ⟨l1, x, l2, rfl, rfl⟩ := mem_cellKeys_split hk
    obtain ⟨s1, hg, hr1, -, hcap⟩ := get_hit hr
    have hnd : ((kv (l1 ++ x :: l2)).map Prod.fst).Nodup := by
      rw [kv_keys]; exact hr.keys_nodup
    have hlk : Model.lookup (kv (l1 ++ x :: l2)) x.key = some x.value := by
      rw [lookup_eq_some_iff hnd]; simp
    have hrm : Model.remove (kv (l1 ++ x :: l2)) x.key = kv (l1 ++ l2) := by
      rw [kv_append, kv_cons] at hnd ⊢
      rw [remove_middle hnd, kv_append]
    refine ⟨s1, ?_, ⟨_, hr1, ?_⟩, hcap⟩
    · simp only [Model.get, hlk]; exact hg
    · simp only [Model.get, hlk, hrm]; rfl
  · have hlk : Model.lookup (kv l) k = none := by
      rw [lookup_eq_none_iff, kv_keys]; exact hk
    refine ⟨s, ?_, ⟨l, hr, ?_⟩, rfl⟩
    · simp only [Model.get, hlk]; exact get_miss (repr_find_not hr hk)
    · simp only [Model.get, hlk]

/-- The method `put` does what the model does. -/
theorem put_abs {s : LRUCache K V} {m : List (K × V)} (ha : Abs s m) (k : K) (v : V) :
    ∃ s1, put s k v = some s1 ∧ Abs s1 (Model.put s.capacity m k v) ∧
      s1.capacity = s.capacity := by
  obtain ⟨l, hr, rfl⟩ := ha
  by_cases hk : k ∈ cellKeys l
  · obtain ⟨l1, x, l2, rfl, rfl⟩ := mem_cellKeys_split hk
    obtain ⟨s1, hp, hr1, -, hcap⟩ := put_hit hr v
    have hnd : ((kv (l1 ++ x :: l2)).map Prod.fst).Nodup := by
      rw [kv_keys]; exact hr.keys_nodup
    have hlk : Model.lookup (kv (l1 ++ x :: l2)) x.key = some x.value := by
      rw [lookup_eq_some_iff hnd]; simp
    have hrm : Model.remove (kv (l1 ++ x :: l2)) x.key = kv (l1 ++ l2) := by
      rw [kv_append, kv_cons] at hnd ⊢
      rw [remove_middle hnd, kv_append]
    refine ⟨s1, hp, ⟨_, hr1, ?_⟩, hcap⟩
    simp only [Model.put, hlk, hrm]; rfl
  · have hlk : Model.lookup (kv l) k = none := by
      rw [lookup_eq_none_iff, kv_keys]; exact hk
    obtain ⟨s2, q, hp, hr2, hcap⟩ := put_miss hr hk v
    refine ⟨s2, hp, ⟨_, hr2, ?_⟩, hcap⟩
    simp only [Model.put, hlk, kv_length, kv_cons]
    split
    · simp [kv, List.map_dropLast]
    · rfl

/-- Any one call succeeds and does what the model does. -/
theorem step_abs {s : LRUCache K V} {m : List (K × V)} (ha : Abs s m) (o : Op K V) :
    ∃ s1, step s o = some s1 ∧ Abs s1 (Model.step s.capacity m o) ∧
      s1.capacity = s.capacity := by
  cases o with
  | get k =>
    obtain ⟨s1, hg, ha1, hc⟩ := get_abs ha k
    exact ⟨s1, by simp [step, hg], ha1, hc⟩
  | put k v => exact put_abs ha k v

/-- Any sequence of calls succeeds and does what the model does. -/
theorem run_abs {s : LRUCache K V} {m : List (K × V)} (ha : Abs s m) (ops : List (Op K V)) :
    ∃ s1, run s ops = some s1 ∧ Abs s1 (Model.run s.capacity m ops) ∧
      s1.capacity = s.capacity := by
  induction ops generalizing s m with
  | nil => exact ⟨s, rfl, ha, rfl⟩
  | cons o r ih =>
    obtain ⟨s1, hs, ha1, hc⟩ := step_abs ha o
    obtain ⟨s2, hr, ha2, hc2⟩ := ih ha1
    refine ⟨s2, by simp [run, hs, hr], ?_, hc2.trans hc⟩
    rw [hc] at ha2
    exact ha2

/-- Every reachable state of a cache of capacity at least 1 denotes a model list. -/
theorem reachable_abs {cap : Nat} (hcap : 1 ≤ cap) {s : LRUCache K V}
    (hs : Reachable cap s) : ∃ m, Abs s m ∧ s.capacity = cap := by
  obtain ⟨ops, hrun⟩ := hs
  obtain ⟨s1, h1, ha, hc⟩ := run_abs (abs_fresh (K := K) (V := V) hcap) ops
  rw [hrun] at h1
  cases h1
  exact ⟨_, ha, hc⟩

/-! ## Facts about the model -/

theorem model_get_fst (m : List (K × V)) (k : K) : (Model.get m k).1 = Model.lookup m k := by
  unfold Model.get
  cases Model.lookup m k <;> rfl

theorem model_put_cons (cap : Nat) (m : List (K × V)) (k : K) (v : V) :
    ∃ r, Model.put cap m k v = (k, v) :: r := by
  unfold Model.put
  cases Model.lookup m k with
  | none => exact ⟨_, rfl⟩
  | some w => exact ⟨_, rfl⟩

theorem cons_dropLast_eq_take {α : Type} (a : α) (l : List α) {n : Nat}
    (hb : l.length ≤ n) (hn : 1 ≤ n) :
    a :: (if n ≤ l.length then l.dropLast else l) = (a :: l).take n := by
  obtain ⟨j, rfl⟩ : ∃ j, n = j + 1 := ⟨n - 1, by omega⟩
  rw [List.take_succ_cons]
  split
  · rw [List.dropLast_eq_take]
    have : l.length = j + 1 := by omega
    simp [this]
  · rw [List.take_of_length_le (by omega)]

/-- On an absent key the model conses the pair and keeps the first `cap` pairs. -/
theorem model_put_new {cap : Nat} {m : List (K × V)} {k : K} (hk : k ∉ m.map Prod.fst)
    (hb : m.length ≤ cap) (hcap : 1 ≤ cap) (v : V) :
    Model.put cap m k v = ((k, v) :: m).take cap := by
  have hlk : Model.lookup m k = none := lookup_eq_none_iff.2 hk
  simp only [Model.put, hlk]
  exact cons_dropLast_eq_take _ _ hb hcap

theorem take_append_take {α : Type} (a b : List α) (n : Nat) :
    (a ++ b.take n).take n = (a ++ b).take n := by
  rw [List.take_append_eq_append_take, List.take_append_eq_append_take, List.take_take]
  congr 2
  omega

/-- Putting pairwise distinct absent keys one after the other: the model is the new
pairs, latest first, followed by the old ones, cut at `cap`. -/
theorem model_run_puts {cap : Nat} (hcap : 1 ≤ cap) (news m : List (K × V))
    (hnd : (news.map Prod.fst ++ m.map Prod.fst).Nodup) (hb : m.length ≤ cap) :
    Model.run cap m (puts news) = (news.reverse ++ m).take cap := by
  induction news generalizing m with
  | nil => simp [puts, Model.run, List.take_of_length_le hb]
  | cons e r ih =>
    obtain ⟨k, v⟩ := e
    simp only [List.map_cons, List.cons_append, List.nodup_cons, List.mem_append, not_or] at hnd
    obtain ⟨⟨hkr, hkm⟩, hrm⟩ := hnd
    have hstep : Model.step cap m (Op.put k v) = ((k, v) :: m).take cap :=
      model_put_new hkm hb hcap v
    have hsub : (r.map Prod.fst ++ (((k, v) :: m).take cap).map Prod.fst).Nodup := by
      have h1 : (r.map Prod.fst ++ k :: m.map Prod.fst).Nodup :=
        List.nodup_middle.2 (List.nodup_cons.2 ⟨by simp [hkr, hkm], hrm⟩)
      refine List.Nodup.sublist ?_ h1
      exact List.Sublist.append (List.Sublist.refl _)
        ((List.take_sublist cap ((k, v) :: m)).map Prod.fst)
    have hlen : (((k, v) :: m).take cap).length ≤ cap := by
      rw [List.length_take]; exact Nat.min_le_left _ _
    show Model.run cap (Model.step cap m (Op.put k v)) (puts r) = _
    rw [hstep, ih _ hsub hlen, take_append_take]
    simp

theorem run_append (s : LRUCache K V) (a b : List (Op K V)) :
    run s (a ++ b) = (run s a).bind (fun s1 => run s1 b) := by
  induction a generalizing s with
  | nil => simp [run]
  | cons o r ih =>
    simp only [List.cons_append, run]
    cases step s o with
    | none => simp
    | some s1 => simp [ih]

theorem reachable_run {cap : Nat} {s s1 : LRUCache K V} (hs : Reachable cap s)
    {ops : List (Op K V)} (h : run s ops = some s1) : Reachable cap s1 := by
  obtain ⟨pre, hpre⟩ := hs
  exact ⟨pre ++ ops, by rw [run_append, hpre]; exact h⟩

/-- A present key is answered with its model value; an absent one with nothing and
no change of state. -/
theorem abs_get_of_lookup {s : LRUCache K V} {m : List (K × V)} (ha : Abs s m) {k : K} {v : V}
    (hl : Model.lookup m k = some v) : ∃ s1, get s k = some (s1, some v) := by
  obtain ⟨s1, hg, -, -⟩ := get_abs ha k
  rw [model_get_fst, hl] at hg
  exact ⟨s1, hg⟩

theorem abs_get_absent {s : LRUCache K V} {m : List (K × V)} (ha : Abs s m) {k : K}
    (hk : k ∉ m.map Prod.fst) : get s k = some (s, none) :=
  get_miss ((abs_find_none ha k).2 hk)

theorem lookup_isSome_of_mem {m : List (K × V)} {k : K} (hk : k ∈ m.map Prod.fst) :
    ∃ v, Model.lookup m k = some v := by
  cases h : Model.lookup m k with
  | none => exact absurd hk (lookup_eq_none_iff.1 h)
  | some v => exact ⟨v, rfl⟩

theorem remove_keys_subset {m : List (K × V)} {k k1 : K}
    (h : k1 ∈ (Model.remove m k).map Prod.fst) : k1 ∈ m.map Prod.fst := by
  obtain ⟨e, he, rfl⟩ := List.mem_map.1 h
  exact List.mem_map_of_mem Prod.fst (List.mem_of_mem_filter he)

/-! ## The claims -/

/-- C1 (capacity bound). For every capacity `cap ≥ 1` and every finite sequence of
`get` / `put` calls on a freshly constructed cache, every call returns, and after each
call (that is, after every initial part `ops.take n` of the sequence) the number of
index mappings `cache.size()` is at most `cap`. -/
theorem capacity_bound (cap : Nat) (hcap : 1 ≤ cap) (ops : List (Op K V)) (n : Nat) :
    ∃ s, run (LRUCache.new cap : LRUCache K V) (ops.take n) = some s ∧ size s ≤ cap := by
  obtain ⟨s, hrun, ha, hc⟩ := run_abs (abs_fresh (K := K) (V := V) hcap) (ops.take n)
  refine ⟨s, hrun, ?_⟩
  rw [abs_size ha]
  have := abs_bound ha
  rw [hc] at this
  exact this

theorem capacity_bound_witness :
    1 ≤ 2 ∧ ∃ s, run (LRUCache.new 2 : LRUCache Nat String)
      ([Op.put 1 "a", Op.put 2 "b", Op.get 1, Op.put 3 "c"].take 4) = some s ∧ size s ≤ 2 :=
  ⟨by decide, capacity_bound 2 (by decide) _ 4⟩

/-- C2 (eviction correctness). For every capacity `cap ≥ 1` and every list of `cap + 1`
pairwise distinct keys `k0, k1, ..., k_cap` with values, putting them in that order
into a fresh cache succeeds and leaves a state in which `get k0` is absent (and changes
nothing), the keys of the index are exactly `k1 .. k_cap` (`cap` mappings), and each
of them is mapped to, and answered by `get` with, the value it was put with. -/
theorem eviction_correctness (cap : Nat) (hcap : 1 ≤ cap) (k0 : K) (v0 : V)
    (kvs : List (K × V)) (hlen : kvs.length = cap)
    (hnd : (((k0, v0) :: kvs).map Prod.fst).Nodup) :
    ∃ s, run (LRUCache.new cap : LRUCache K V) (puts ((k0, v0) :: kvs)) = some s ∧
      get s k0 = some (s, none) ∧
      (∀ k, k ∈ keys s ↔ k ∈ kvs.map Prod.fst) ∧
      size s = cap ∧
      (∀ e ∈ kvs, valueOf s e.1 = some e.2 ∧ ∃ s1, get s e.1 = some (s1, some e.2)) := by
  obtain ⟨s, hrun, ha, hc⟩ :=
    run_abs (abs_fresh (K := K) (V := V) hcap) (puts ((k0, v0) :: kvs))
  have hm : Model.run cap ([] : List (K × V)) (puts ((k0, v0) :: kvs)) = kvs.reverse := by
    rw [model_run_puts hcap _ _ (by simpa using hnd) (Nat.zero_le _)]
    simp only [List.reverse_cons, List.append_nil]
    exact List.take_left' (by simp [hlen])
  have hcap0 : (LRUCache.new cap : LRUCache K V).capacity = cap := rfl
  rw [hcap0, hm] at ha
  have hnd1 : (kvs.reverse.map Prod.fst).Nodup := abs_nodup ha
  simp only [List.map_cons, List.nodup_cons] at hnd
  refine ⟨s, hrun, ?_, ?_, ?_, ?_⟩
  · exact abs_get_absent ha (by simpa using hnd.1)
  · intro k
    rw [abs_mem_keys ha]
    simp
  · rw [abs_size ha]; simp [hlen]
  · intro e he
    have hl : Model.lookup kvs.reverse e.1 = some e.2 := by
      rw [lookup_eq_some_iff hnd1]
      simpa using he
    exact ⟨by rw [abs_valueOf ha, hl], abs_get_of_lookup ha hl⟩

theorem eviction_correctness_witness :
    1 ≤ 2 ∧ ∃ s, run (LRUCache.new 2 : LRUCache Nat String)
        (puts ((1, "a") :: [(2, "b"), (3, "c")])) = some s ∧
      get s 1 = some (s, none) ∧
      (∀ k, k ∈ keys s ↔ k ∈ [(2, "b"), (3, "c")].map Prod.fst) ∧
      size s = 2 ∧
      (∀ e ∈ [(2, "b"), (3, "c")],
        valueOf s e.1 = some e.2 ∧ ∃ s1, get s e.1 = some (s1, some e.2)) :=
  ⟨by decide, eviction_correctness 2 (by decide) 1 "a" [(2, "b"), (3, "c")] rfl (by decide)⟩

/-- C3 (concrete scenario). On a fresh cache of capacity 2 the calls `put(1,"a")`,
`put(2,"b")`, `get(1)`, `put(3,"c")`, `get(2)`, `get(3)`, `get(1)` all return; the
first `get(1)` returns "a"; after `put(3,"c")` the index holds exactly the keys 3 and 1
(key 2 has been evicted); `get(2)` is absent, `get(3)` returns "c" and the last
`get(1)` returns "a". -/
theorem concrete_scenario :
    (run (LRUCache.new 2 : LRUCache Nat String) [Op.put 1 "a", Op.put 2 "b"]).bind
      (fun s => answer s 1) = some (some "a") ∧
    (run (LRUCache.new 2 : LRUCache Nat String)
      [Op.put 1 "a", Op.put 2 "b", Op.get 1, Op.put 3 "c"]).map keys = some [3, 1] ∧
    (run (LRUCache.new 2 : LRUCache Nat String)
      [Op.put 1 "a", Op.put 2 "b", Op.get 1, Op.put 3 "c"]).bind
      (fun s => answer s 2) = some none ∧
    (run (LRUCache.new 2 : LRUCache Nat String)
      [Op.put 1 "a", Op.put 2 "b", Op.get 1, Op.put 3 "c", Op.get 2]).bind
      (fun s => answer s 3) = some (some "c") ∧
    (run (LRUCache.new 2 : LRUCache Nat String)
      [Op.put 1 "a", Op.put 2 "b", Op.get 1, Op.put 3 "c", Op.get 2, Op.get 3]).bind
      (fun s => answer s 1) = some (some "a") := by
  refine ⟨rfl, rfl, rfl, rfl, rfl⟩

/-- C4 (overwrite semantics). For every capacity `cap ≥ 1`, every state reachable from a
fresh cache by `get` / `put` calls, every key `k` present in the index and every value
`v`: `put(k, v)` returns, the number of index mappings is the same as before, an
immediately following `get(k)` returns `v`, and `head` points to a node whose key is
`k`. -/
theorem overwrite_semantics (cap : Nat) (hcap : 1 ≤ cap) (s : LRUCache K V)
    (hs : Reachable cap s) (k : K) (hk : k ∈ keys s) (v : V) :
    ∃ s1 s2 n, put s k v = some s1 ∧ size s1 = size s ∧
      get s1 k = some (s2, some v) ∧
      s1.heap.read s1.head = some n ∧ n.key = k := by
  obtain ⟨m, ⟨l, hr, rfl⟩, -⟩ := reachable_abs hcap hs
  have hk1 : k ∈ cellKeys l := (repr_keys_perm hr).mem_iff.1 hk
  obtain ⟨l1, x, l2, rfl, rfl⟩ := mem_cellKeys_split hk1
  obtain ⟨s1, hp, hr1, hc, -⟩ := put_hit hr v
  have hr1a : Repr s1 ([] ++ { ptr := x.ptr, key := x.key, value := v } :: (l1 ++ l2)) := hr1
  obtain ⟨s2, hg, -, -, -⟩ := get_hit hr1a
  obtain ⟨n, hn, hkey, -, -⟩ := abs_head (s := s1) (k := x.key) (v := v) ⟨_, hr1, rfl⟩
  exact ⟨s1, s2, n, hp, by simp [size, hc], hg, hn, hkey⟩

theorem overwrite_semantics_witness :
    ∃ s1 s2 n, put (LRUCache.mk 2 [(2, some 1), (1, some 0)] (some 1) (some 0)
        [Node.mk 1 "a" (some 1) none, Node.mk 2 "b" none (some 0)]) 1 "z" = some s1 ∧
      size s1 = size (LRUCache.mk 2 [(2, some 1), (1, some 0)] (some 1) (some 0)
        [Node.mk 1 "a" (some 1) none, Node.mk 2 "b" none (some 0)]) ∧
      get s1 1 = some (s2, some "z") ∧
      s1.heap.read s1.head = some n ∧ n.key = 1 :=
  overwrite_semantics 2 (by decide)
    (LRUCache.mk 2 [(2, some 1), (1, some 0)] (some 1) (some 0)
      [Node.mk 1 "a" (some 1) none, Node.mk 2 "b" none (some 0)])
    ⟨[Op.put 1 "a", Op.put 2 "b"], by decide⟩ 1 (by decide) "z"

/-- C5 (idempotent miss). For every cache state and every key `k` that is not in the
index, `get(k)` returns the absent result (it does not fail) and the state after the
call is the state before it: index, `head`, `tail`, every node with its links and
value are the same, hence so are the size and the order of the entries. -/
theorem idempotent_miss (s : LRUCache K V) (k : K) (hk : k ∉ keys s) :
    get s k = some (s, none) :=
  get_miss (find_eq_none_iff.2 hk)

theorem idempotent_miss_witness :
    get (LRUCache.mk 2 [(2, some 1), (1, some 0)] (some 1) (some 0)
        [Node.mk 1 "a" (some 1) none, Node.mk 2 "b" none (some 0)]) 7
      = some (LRUCache.mk 2 [(2, some 1), (1, some 0)] (some 1) (some 0)
        [Node.mk 1 "a" (some 1) none, Node.mk 2 "b" none (some 0)], none) :=
  idempotent_miss _ 7 (by decide)

/-- C6, as stated, fails. Capacity 2: after `put(1,"a")`, `put(2,"b")` the index holds
the keys 2 and 1; `get(1)` hits and returns "a"; then the two new distinct keys 3 and
4 (neither in the cache, neither equal to 1) are put, and key 1 has been evicted:
`get(1)` is absent and the index holds the keys 4 and 3. -/
theorem recency_promotion_counterexample :
    (run (LRUCache.new 2 : LRUCache Nat String) [Op.put 1 "a", Op.put 2 "b"]).map keys
      = some [2, 1] ∧
    (run (LRUCache.new 2 : LRUCache Nat String) [Op.put 1 "a", Op.put 2 "b"]).bind
      (fun s => answer s 1) = some (some "a") ∧
    (run (LRUCache.new 2 : LRUCache Nat String)
      [Op.put 1 "a", Op.put 2 "b", Op.get 1, Op.put 3 "c", Op.put 4 "d"]).map keys
      = some [4, 3] ∧
    (run (LRUCache.new 2 : LRUCache Nat String)
      [Op.put 1 "a", Op.put 2 "b", Op.get 1, Op.put 3 "c", Op.put 4 "d"]).bind
      (fun s => answer s 1) = some none := by
  refine ⟨rfl, rfl, rfl, rfl⟩

/-- C6, amended (recency promotion). For every capacity `cap ≥ 1`, every state reachable
from a fresh cache by `get` / `put` calls and every key `k` present in it: `get(k)`
returns the value `v` of `k`, and after putting at most `cap - 1` new pairwise distinct
keys (none of them in the cache) the key `k` has not been evicted: `get(k)` still
returns `v`. -/
theorem recency_promotion_amended (cap : Nat) (hcap : 1 ≤ cap) (s : LRUCache K V)
    (hs : Reachable cap s) (k : K) (hk : k ∈ keys s) (news : List (K × V))
    (hlen : news.length + 1 ≤ cap) (hnd : (news.map Prod.fst).Nodup)
    (hnew : ∀ e ∈ news, e.1 ∉ keys s) :
    ∃ s1 v s2 s3, get s k = some (s1, some v) ∧ run s1 (puts news) = some s2 ∧
      get s2 k = some (s3, some v) := by
  obtain ⟨m, ha, hc⟩ := reachable_abs hcap hs
  have hkm : k ∈ m.map Prod.fst := (abs_mem_keys ha k).1 hk
  obtain ⟨v, hl⟩ := lookup_isSome_of_mem hkm
  obtain ⟨s1, hg, ha1, hc1⟩ := get_abs ha k
  have hget : Model.get m k = (some v, (k, v) :: Model.remove m k) := by
    simp only [Model.get, hl]
  rw [hget] at hg ha1
  obtain ⟨s2, hrun, ha2, -⟩ := run_abs ha1 (puts news)
  have hdisj : (news.map Prod.fst ++ ((k, v) :: Model.remove m k).map Prod.fst).Nodup := by
    refine List.nodup_append.2 ⟨hnd, abs_nodup ha1, ?_⟩
    intro k1 h1 h2
    obtain ⟨e, he, rfl⟩ := List.mem_map.1 h1
    have hnot : e.1 ∉ m.map Prod.fst := fun hm => hnew e he ((abs_mem_keys ha _).2 hm)
    simp only [List.map_cons, List.mem_cons] at h2
    rcases h2 with h2 | h2
    · exact hnot (h2 ▸ hkm)
    · exact hnot (remove_keys_subset h2)
  have hcap1 : s1.capacity = cap := hc1.trans hc
  rw [hcap1, model_run_puts hcap news _ hdisj (hcap1 ▸ abs_bound ha1)] at ha2
  have hmem : (k, v) ∈ (news.reverse ++ (k, v) :: Model.remove m k).take cap := by
    rw [List.take_append_eq_append_take]
    refine List.mem_append_right _ ?_
    obtain ⟨j, hj⟩ : ∃ j, cap - news.reverse.length = j + 1 :=
      ⟨cap - news.reverse.length - 1, by simp; omega⟩
    rw [hj, List.take_succ_cons]
    exact List.mem_cons_self _ _
  have hl2 := (lookup_eq_some_iff (abs_nodup ha2)).2 hmem
  obtain ⟨s3, hg3⟩ := abs_get_of_lookup ha2 hl2
  exact ⟨s1, v, s2, s3, hg, hrun, hg3⟩

theorem recency_promotion_amended_witness :
    ∃ s1 v s2 s3,
      get (LRUCache.mk 2 [(2, some 1), (1, some 0)] (some 1) (some 0)
        [Node.mk 1 "a" (some 1) none, Node.mk 2 "b" none (some 0)]) 1 = some (s1, some v) ∧
      run s1 (puts [(3, "c")]) = some s2 ∧ get s2 1 = some (s3, some v) :=
  recency_promotion_amended 2 (by decide)
    (LRUCache.mk 2 [(2, some 1), (1, some 0)] (some 1) (some 0)
      [Node.mk 1 "a" (some 1) none, Node.mk 2 "b" none (some 0)])
    ⟨[Op.put 1 "a", Op.put 2 "b"], by decide⟩ 1 (by decide) [(3, "c")] (by decide)
    (by decide) (by decide)

/-- C7, as stated, fails. Constructing with capacity 0 yields a cache instance, the
empty one, and its capacity field is less than 1. -/
theorem construction_failure_counterexample :
    (LRUCache.new 0 : LRUCache Nat String) = LRUCache.mk 0 [] none none [] ∧
    (LRUCache.new 0 : LRUCache Nat String).capacity < 1 :=
  ⟨rfl, by decide⟩

/-- C7, amended (construction). Constructing the cache succeeds for every capacity, 0
included: the result is the empty cache (no mapping, `head` and `tail` unset, no
node) whose capacity field is the argument. The constructor has no failing path. -/
theorem construction_total (cap : Nat) :
    (LRUCache.new cap : LRUCache K V) = LRUCache.mk cap [] none none [] ∧
    (LRUCache.new cap : LRUCache K V).capacity = cap ∧
    size (LRUCache.new cap : LRUCache K V) = 0 :=
  ⟨rfl, rfl, rfl⟩

/-- C8 (single-capacity churn). For a cache of capacity 1, in every state reachable from
the fresh cache by `get` / `put` calls, `put(k, v)` of a key `k` that is not in the
cache returns and evicts the previous sole entry: afterwards the index holds exactly
the one key `k`, mapped to `v`, and `get` of any previously held key is absent. -/
theorem single_capacity_churn (s : LRUCache K V) (hs : Reachable 1 s) (k : K)
    (hk : k ∉ keys s) (v : V) :
    ∃ s1, put s k v = some s1 ∧ keys s1 = [k] ∧ valueOf s1 k = some v ∧
      (∀ k1, k1 ∈ keys s → get s1 k1 = some (s1, none)) := by
  obtain ⟨m, ha, hc⟩ := reachable_abs (le_refl 1) hs
  have hkm : k ∉ m.map Prod.fst := fun h => hk ((abs_mem_keys ha k).2 h)
  obtain ⟨s1, hp, ha1, -⟩ := put_abs ha k v
  have hb := abs_bound ha
  rw [hc] at hb ha1
  have hm : Model.put 1 m k v = [(k, v)] := by
    rw [model_put_new hkm hb (le_refl 1)]
    rfl
  rw [hm] at ha1
  refine ⟨s1, hp, ?_, ?_, ?_⟩
  · exact List.perm_singleton.1 (abs_keys ha1)
  · rw [abs_valueOf ha1]; simp [Model.lookup]
  · intro k1 hk1
    refine abs_get_absent ha1 ?_
    simp only [List.map_cons, List.map_nil, List.mem_singleton]
    rintro rfl
    exact hk hk1

theorem single_capacity_churn_witness :
    ∃ s1, put (LRUCache.mk 1 [(1, some 0)] (some 0) (some 0) [Node.mk 1 "a" none none]) 2 "b"
        = some s1 ∧
      keys s1 = [2] ∧ valueOf s1 2 = some "b" ∧
      (∀ k1, k1 ∈ keys (LRUCache.mk 1 [(1, some 0)] (some 0) (some 0)
          [Node.mk 1 "a" none none]) → get s1 k1 = some (s1, none)) :=
  single_capacity_churn
    (LRUCache.mk 1 [(1, some 0)] (some 0) (some 0) [Node.mk 1 "a" none none])
    ⟨[Op.put 1 "a"], by decide⟩ 2 (by decide) "b"

/-- C9 (strict LRU eviction). For every capacity `cap ≥ 1`, every reachable state whose
index holds exactly `cap` keys and every key `k` not in the index: `put(k, v)` returns
and evicts exactly the entry `tail` points to. `tail` is set and its key is in the
index; afterwards the keys are the old keys without the key of `tail`, plus `k`; the
number of mappings is unchanged; and every surviving old key maps to the same value. -/
theorem strict_lru_eviction (cap : Nat) (hcap : 1 ≤ cap) (s : LRUCache K V)
    (hs : Reachable cap s) (hfull : size s = cap) (k : K) (hk : k ∉ keys s) (v : V) :
    ∃ s1 t, put s k v = some s1 ∧ s.heap.read s.tail = some t ∧ t.key ∈ keys s ∧
      (∀ k1, k1 ∈ keys s1 ↔ (k1 = k ∨ (k1 ∈ keys s ∧ k1 ≠ t.key))) ∧
      size s1 = size s ∧
      (∀ k1, k1 ∈ keys s → k1 ≠ t.key → valueOf s1 k1 = valueOf s k1) := by
  obtain ⟨m, ha, hc⟩ := reachable_abs hcap hs
  have hkm : k ∉ m.map Prod.fst := fun h => hk ((abs_mem_keys ha k).2 h)
  have hlen : m.length = cap := by rw [← abs_size ha]; exact hfull
  obtain ⟨r, e, rfl⟩ : ∃ r e, m = r ++ [e] := by
    rcases List.eq_nil_or_concat m with h | ⟨r, e, h⟩
    · rw [h] at hlen; simp at hlen; omega
    · exact ⟨r, e, by simpa using h⟩
  obtain ⟨tk, tv⟩ := e
  obtain ⟨t, ht, htk, -⟩ := abs_tail ha
  obtain ⟨s1, hp, ha1, -⟩ := put_abs ha k v
  have hm : Model.put s.capacity (r ++ [(tk, tv)]) k v = (k, v) :: r := by
    have hlk : Model.lookup (r ++ [(tk, tv)]) k = none := lookup_eq_none_iff.2 hkm
    simp only [Model.put, hlk]
    rw [if_pos (by rw [hc, hlen]), List.dropLast_concat]
  rw [hm] at ha1
  have hnd := abs_nodup ha
  have hnd1 := abs_nodup ha1
  have htr : tk ∉ r.map Prod.fst := by
    rw [List.map_append] at hnd
    intro h
    exact (List.nodup_append.1 hnd).2.2 h (by simp)
  refine ⟨s1, t, hp, ht, ?_, ?_, ?_, ?_⟩
  · rw [htk, abs_mem_keys ha]; simp
  · intro k1
    rw [abs_mem_keys ha1, abs_mem_keys ha, htk]
    simp only [List.map_cons, List.mem_cons, List.map_append, List.map_nil, List.mem_append,
      List.not_mem_nil, or_false]
    constructor
    · rintro (h | h)
      · exact Or.inl h
      · exact Or.inr ⟨Or.inl h, fun e => htr (e ▸ h)⟩
    · rintro (h | ⟨h | h, hne⟩)
      · exact Or.inl h
      · exact Or.inr h
      · exact absurd h hne
  · rw [abs_size ha1, abs_size ha]; simp
  · intro k1 hk1 hne
    rw [htk] at hne
    have hk1r : k1 ∈ r.map Prod.fst := by
      have := (abs_mem_keys ha k1).1 hk1
      rw [List.map_append, List.mem_append] at this
      rcases this with h | h
      · exact h
      · exact absurd (by simpa using h) hne
    obtain ⟨e, he, rfl⟩ := List.mem_map.1 hk1r
    have h1 : Model.lookup ((k, v) :: r) e.1 = some e.2 :=
      (lookup_eq_some_iff hnd1).2 (List.mem_cons_of_mem _ he)
    have h2 : Model.lookup (r ++ [(tk, tv)]) e.1 = some e.2 :=
      (lookup_eq_some_iff hnd).2 (List.mem_append_left _ he)
    rw [abs_valueOf ha1, abs_valueOf ha, h1, h2]

theorem strict_lru_eviction_witness :
    ∃ s1 t,
      put (LRUCache.mk 2 [(2, some 1), (1, some 0)] (some 1) (some 0)
        [Node.mk 1 "a" (some 1) none, Node.mk 2 "b" none (some 0)]) 3 "c" = some s1 ∧
      Heap.read [Node.mk 1 "a" (some 1) none, Node.mk 2 "b" none (some 0)] (some 0) = some t ∧
      t.key ∈ [2, 1] ∧
      (∀ k1, k1 ∈ keys s1 ↔ (k1 = 3 ∨ (k1 ∈ [2, 1] ∧ k1 ≠ t.key))) ∧
      size s1 = 2 ∧
      (∀ k1, k1 ∈ [2, 1] → k1 ≠ t.key → valueOf s1 k1 =
        valueOf (LRUCache.mk 2 [(2, some 1), (1, some 0)] (some 1) (some 0)
          [Node.mk 1 "a" (some 1) none, Node.mk 2 "b" none (some 0)]) k1) :=
  strict_lru_eviction 2 (by decide)
    (LRUCache.mk 2 [(2, some 1), (1, some 0)] (some 1) (some 0)
      [Node.mk 1 "a" (some 1) none, Node.mk 2 "b" none (some 0)])
    ⟨[Op.put 1 "a", Op.put 2 "b"], by decide⟩ rfl 3 (by decide) "c"

/-- C10 (put places its key at the front). For every capacity `cap ≥ 1`, every reachable
state, every key `k` (new or present) and every value `v`: `put(k, v)` returns, and
afterwards `head` points to a node whose key is `k`, whose value is `v` and whose
`prev` link is null. -/
theorem put_front (cap : Nat) (hcap : 1 ≤ cap) (s : LRUCache K V)
    (hs : Reachable cap s) (k : K) (v : V) :
    ∃ s1 n, put s k v = some s1 ∧ s1.heap.read s1.head = some n ∧
      n.key = k ∧ n.value = v ∧ n.prev = none := by
  obtain ⟨m, ha, -⟩ := reachable_abs hcap hs
  obtain ⟨s1, hp, ha1, -⟩ := put_abs ha k v
  obtain ⟨r, hr⟩ := model_put_cons s.capacity m k v
  rw [hr] at ha1
  obtain ⟨n, hn, h1, h2, h3⟩ := abs_head ha1
  exact ⟨s1, n, hp, hn, h1, h2, h3⟩

theorem put_front_witness :
    ∃ s1 n,
      put (LRUCache.mk 1 [(1, some 0)] (some 0) (some 0) [Node.mk 1 "a" none none]) 2 "b"
        = some s1 ∧
      s1.heap.read s1.head = some n ∧ n.key = 2 ∧ n.value = "b" ∧ n.prev = none :=
  put_front 1 (by decide)
    (LRUCache.mk 1 [(1, some 0)] (some 0) (some 0) [Node.mk 1 "a" none none])
    ⟨[Op.put 1 "a"], by decide⟩ 2 "b"

/-! ## Further facts about reachable states -/

theorem lookup_perm {m m1 : List (K × V)} (hp : List.Perm m m1)
    (hnd : (m.map Prod.fst).Nodup) (k : K) : Model.lookup m k = Model.lookup m1 k := by
  have hnd1 : (m1.map Prod.fst).Nodup := (hp.map _).nodup_iff.1 hnd
  cases h : Model.lookup m1 k with
  | none =>
    rw [lookup_eq_none_iff] at h ⊢
    exact fun hm => h ((hp.map _).mem_iff.1 hm)
  | some v =>
    rw [lookup_eq_some_iff hnd1] at h
    rw [lookup_eq_some_iff hnd]
    exact hp.mem_iff.2 h

theorem lookup_cons_ne {m : List (K × V)} {k k1 : K} (v : V) (h : k1 ≠ k) :
    Model.lookup ((k, v) :: m) k1 = Model.lookup m k1 := by
  have : ¬ k = k1 := fun e => h e.symm
  simp [Model.lookup, this]

/-- Every reachable state of a cache of capacity at least 1 holds a recency list. -/
theorem reachable_repr {cap : Nat} (hcap : 1 ≤ cap) {s : LRUCache K V}
    (hs : Reachable cap s) : ∃ l, Repr s l ∧ s.capacity = cap := by
  obtain ⟨m, ⟨l, hr, -⟩, hc⟩ := reachable_abs hcap hs
  exact ⟨l, hr, hc⟩

theorem repr_abs {s : LRUCache K V} {l : List (Cell K V)} (hr : Repr s l) : Abs s (kv l) :=
  ⟨l, hr, rfl⟩

/-- The values seen through the index only depend on the cells, not on their order. -/
theorem valueOf_perm {s s1 : LRUCache K V} {l l1 : List (Cell K V)} (hr : Repr s l)
    (hr1 : Repr s1 l1) (hp : List.Perm l l1) (k : K) : valueOf s1 k = valueOf s k := by
  rw [abs_valueOf (repr_abs hr1), abs_valueOf (repr_abs hr)]
  symm
  have hp1 : List.Perm (kv l) (kv l1) := hp.map _
  exact lookup_perm hp1 (by rw [kv_keys]; exact hr.keys_nodup) k

/-- The node a present key is mapped to. -/
theorem repr_find_read {s : LRUCache K V} {l : List (Cell K V)} (hr : Repr s l)
    {k : K} {p : Ptr} (hf : Index.find s.cache k = some p) :
    ∃ c n, c ∈ l ∧ c.key = k ∧ p = some c.ptr ∧ s.heap[c.ptr]? = some n ∧
      n.key = k ∧ n.value = c.value := by
  have hk : k ∈ cellKeys l := by
    by_contra hno
    rw [repr_find_not hr hno] at hf
    cases hf
  obtain ⟨c, hc, rfl⟩ := List.mem_map.1 hk
  have := repr_find_mem hr hc
  rw [hf] at this
  obtain ⟨n, hn, hkey, hval⟩ := repr_read hr hc
  exact ⟨c, n, hc, rfl, Option.some.inj this, hn, hkey, hval⟩

/-! ## The claims, continued -/

/-- C11 (a hit changes only the recency). For every capacity `cap ≥ 1`, every reachable
state and every key `k` present in it: `get(k)` returns the value stored for `k`;
afterwards the index has the same keys, every key (`k` included) is mapped to the same
value as before, and `head` points to a node whose key is `k`. -/
theorem get_hit_only_recency (cap : Nat) (hcap : 1 ≤ cap) (s : LRUCache K V)
    (hs : Reachable cap s) (k : K) (hk : k ∈ keys s) :
    ∃ s1 v n, valueOf s k = some v ∧ get s k = some (s1, some v) ∧
      keys s1 = keys s ∧ (∀ k1, valueOf s1 k1 = valueOf s k1) ∧
      s1.heap.read s1.head = some n ∧ n.key = k := by
  obtain ⟨l, hr, -⟩ := reachable_repr hcap hs
  have hk1 : k ∈ cellKeys l := (repr_keys_perm hr).mem_iff.1 hk
  obtain ⟨l1, x, l2, rfl, rfl⟩ := mem_cellKeys_split hk1
  obtain ⟨s1, hg, hr1, hc, -⟩ := get_hit hr
  obtain ⟨n, hn, hkey, -, -⟩ := abs_head (s := s1) (k := x.key) (v := x.value) ⟨_, hr1, rfl⟩
  refine ⟨s1, x.value, n, repr_valueOf_mem hr (by simp), hg, by simp [keys, hc], ?_, hn, hkey⟩
  intro k1
  exact valueOf_perm hr hr1 List.perm_middle k1

theorem get_hit_only_recency_witness :
    ∃ s1 v n,
      valueOf (LRUCache.mk 2 [(2, some 1), (1, some 0)] (some 1) (some 0)
        [Node.mk 1 "a" (some 1) none, Node.mk 2 "b" none (some 0)]) 1 = some v ∧
      get (LRUCache.mk 2 [(2, some 1), (1, some 0)] (some 1) (some 0)
        [Node.mk 1 "a" (some 1) none, Node.mk 2 "b" none (some 0)]) 1 = some (s1, some v) ∧
      keys s1 = keys (LRUCache.mk 2 [(2, some 1), (1, some 0)] (some 1) (some 0)
        [Node.mk 1 "a" (some 1) none, Node.mk 2 "b" none (some 0)]) ∧
      (∀ k1, valueOf s1 k1 =
        valueOf (LRUCache.mk 2 [(2, some 1), (1, some 0)] (some 1) (some 0)
          [Node.mk 1 "a" (some 1) none, Node.mk 2 "b" none (some 0)]) k1) ∧
      s1.heap.read s1.head = some n ∧ n.key = 1 :=
  get_hit_only_recency 2 (by decide)
    (LRUCache.mk 2 [(2, some 1), (1, some 0)] (some 1) (some 0)
      [Node.mk 1 "a" (some 1) none, Node.mk 2 "b" none (some 0)])
    ⟨[Op.put 1 "a", Op.put 2 "b"], by decide⟩ 1 (by decide)

/-- C12 (no eviction on overwrite). For every capacity `cap ≥ 1`, every reachable state
(a full one included) and every key `k` already present: `put(k, v)` returns, leaves
the keys of the index unchanged and leaves every key other than `k` mapped to the same
value as before. -/
theorem overwrite_no_eviction (cap : Nat) (hcap : 1 ≤ cap) (s : LRUCache K V)
    (hs : Reachable cap s) (k : K) (hk : k ∈ keys s) (v : V) :
    ∃ s1, put s k v = some s1 ∧ keys s1 = keys s ∧
      (∀ k1, k1 ≠ k → valueOf s1 k1 = valueOf s k1) := by
  obtain ⟨l, hr, -⟩ := reachable_repr hcap hs
  have hk1 : k ∈ cellKeys l := (repr_keys_perm hr).mem_iff.1 hk
  obtain ⟨l1, x, l2, rfl, rfl⟩ := mem_cellKeys_split hk1
  obtain ⟨s1, hp, hr1, hc, -⟩ := put_hit hr v
  refine ⟨s1, hp, by simp [keys, hc], ?_⟩
  intro k1 hne
  have hperm : List.Perm (kv (l1 ++ x :: l2)) (kv (x :: (l1 ++ l2))) :=
    List.perm_middle.map _
  rw [abs_valueOf (repr_abs hr1), abs_valueOf (repr_abs hr),
    lookup_perm hperm (by rw [kv_keys]; exact hr.keys_nodup) k1]
  rw [kv_cons, kv_cons, lookup_cons_ne _ hne, lookup_cons_ne _ hne]

theorem overwrite_no_eviction_witness :
    ∃ s1,
      put (LRUCache.mk 2 [(2, some 1), (1, some 0)] (some 1) (some 0)
        [Node.mk 1 "a" (some 1) none, Node.mk 2 "b" none (some 0)]) 1 "z" = some s1 ∧
      keys s1 = keys (LRUCache.mk 2 [(2, some 1), (1, some 0)] (some 1) (some 0)
        [Node.mk 1 "a" (some 1) none, Node.mk 2 "b" none (some 0)]) ∧
      (∀ k1, k1 ≠ 1 → valueOf s1 k1 =
        valueOf (LRUCache.mk 2 [(2, some 1), (1, some 0)] (some 1) (some 0)
          [Node.mk 1 "a" (some 1) none, Node.mk 2 "b" none (some 0)]) k1) :=
  overwrite_no_eviction 2 (by decide)
    (LRUCache.mk 2 [(2, some 1), (1, some 0)] (some 1) (some 0)
      [Node.mk 1 "a" (some 1) none, Node.mk 2 "b" none (some 0)])
    ⟨[Op.put 1 "a", Op.put 2 "b"], by decide⟩ 1 (by decide) "z"

/-- C13 fails at capacity 1. After `put(1,"a")`, `put(2,"b")` the index holds the one key
2 and `head` and `tail` both point to the node of key 2 (address 1), but the `next`
link of that node still points to the evicted node of key 1 (address 0): following
the `next` links from `head` until a null link visits the addresses 1, 0, that is the
keys 2, 1. The eviction block of `put` resets `tail` and leaves `head` on the evicted
node, which `moveToFront` then links behind the new node. -/
theorem stale_link_after_sole_eviction :
    (run (LRUCache.new 1 : LRUCache Nat String) [Op.put 1 "a", Op.put 2 "b"]).map
      (fun s => (keys s, s.head, s.tail, walk s.heap (s.heap.length + 1) s.head,
        (walk s.heap (s.heap.length + 1) s.head).map (keysAt s.heap),
        (s.heap.read s.tail).map (fun n => n.next)))
      = some ([2], some 1, some 1, some [1, 0], some [2, 1], some (some 0)) := by
  rfl

/-- C14 (end pointers). For every capacity `cap ≥ 1` and every reachable state: `head`
is null iff `tail` is null iff the index is empty; and whenever the index holds exactly
one key, `head` and `tail` are set and point to the same node. -/
theorem end_pointers (cap : Nat) (hcap : 1 ≤ cap) (s : LRUCache K V)
    (hs : Reachable cap s) :
    (s.head = none ↔ s.tail = none) ∧ (s.tail = none ↔ size s = 0) ∧
      (size s = 1 → s.head = s.tail ∧ ∃ p n, s.head = some p ∧ s.heap[p]? = some n) := by
  obtain ⟨l, hr, -⟩ := reachable_repr hcap hs
  have hsz := repr_size hr
  have hh := hr.head_eq
  have ht := hr.tail_eq
  obtain ⟨nx, hseg, -⟩ := hr.seg
  cases l with
  | nil =>
    have h1 : s.head = none := hh
    have h2 : s.tail = none := ht
    have h3 : size s = 0 := hsz
    simp [h1, h2, h3]
  | cons c r =>
    have h1 : s.head = some c.ptr := hh
    have h2 : s.tail ≠ none := by rw [ht]; exact lastPtr_some_ne_none r c.ptr
    have h3 : size s = r.length + 1 := hsz
    refine ⟨by simp [h1, h2], by simp [h2, h3], ?_⟩
    intro h4
    have hr0 : r = [] := List.length_eq_zero.1 (by omega)
    subst hr0
    have h5 : s.tail = some c.ptr := ht
    exact ⟨by rw [h1, h5], c.ptr, _, h1, hseg.1⟩

/-- C15 (promoting the front is a no-op). For every capacity `cap ≥ 1`, every reachable
state and every key `k` whose index entry is the current `head`: `get(k)` returns the
value of `k` and the state after the call is identical to the state before it (index,
`head`, `tail`, all nodes with their links and values). -/
theorem promote_front_noop (cap : Nat) (hcap : 1 ≤ cap) (s : LRUCache K V)
    (hs : Reachable cap s) (k : K) (hk : Index.find s.cache k = some s.head) :
    ∃ v, valueOf s k = some v ∧ get s k = some (s, some v) := by
  obtain ⟨l, hr, -⟩ := reachable_repr hcap hs
  obtain ⟨c, n, -, -, hp, hn, -, -⟩ := repr_find_read hr hk
  refine ⟨n.value, ?_, ?_⟩
  · simp [valueOf, hk, hp, Heap.read, hn]
  · simp [get, hk, moveToFront, hp, Heap.read, hn]

theorem promote_front_noop_witness :
    ∃ v,
      valueOf (LRUCache.mk 2 [(2, some 1), (1, some 0)] (some 1) (some 0)
        [Node.mk 1 "a" (some 1) none, Node.mk 2 "b" none (some 0)]) 2 = some v ∧
      get (LRUCache.mk 2 [(2, some 1), (1, some 0)] (some 1) (some 0)
        [Node.mk 1 "a" (some 1) none, Node.mk 2 "b" none (some 0)]) 2
        = some (LRUCache.mk 2 [(2, some 1), (1, some 0)] (some 1) (some 0)
          [Node.mk 1 "a" (some 1) none, Node.mk 2 "b" none (some 0)], some v) :=
  promote_front_noop 2 (by decide)
    (LRUCache.mk 2 [(2, some 1), (1, some 0)] (some 1) (some 0)
      [Node.mk 1 "a" (some 1) none, Node.mk 2 "b" none (some 0)])
    ⟨[Op.put 1 "a", Op.put 2 "b"], by decide⟩ 2 (by decide)

theorem end_pointers_witness :
    ((LRUCache.mk 1 [(1, some 0)] (some 0) (some 0) [Node.mk 1 "a" none none] :
        LRUCache Nat String).head = none ↔
      (LRUCache.mk 1 [(1, some 0)] (some 0) (some 0) [Node.mk 1 "a" none none] :
        LRUCache Nat String).tail = none) ∧
    ((LRUCache.mk 1 [(1, some 0)] (some 0) (some 0) [Node.mk 1 "a" none none] :
        LRUCache Nat String).tail = none ↔
      size (LRUCache.mk 1 [(1, some 0)] (some 0) (some 0) [Node.mk 1 "a" none none] :
        LRUCache Nat String) = 0) ∧
    (size (LRUCache.mk 1 [(1, some 0)] (some 0) (some 0) [Node.mk 1 "a" none none] :
        LRUCache Nat String) = 1 →
      (LRUCache.mk 1 [(1, some 0)] (some 0) (some 0) [Node.mk 1 "a" none none] :
        LRUCache Nat String).head =
      (LRUCache.mk 1 [(1, some 0)] (some 0) (some 0) [Node.mk 1 "a" none none] :
        LRUCache Nat String).tail ∧
      ∃ p n, (LRUCache.mk 1 [(1, some 0)] (some 0) (some 0) [Node.mk 1 "a" none none] :
        LRUCache Nat String).head = some p ∧
        (LRUCache.mk 1 [(1, some 0)] (some 0) (some 0) [Node.mk 1 "a" none none] :
          LRUCache Nat String).heap[p]? = some n) :=
  end_pointers 1 (by decide)
    (LRUCache.mk 1 [(1, some 0)] (some 0) (some 0) [Node.mk 1 "a" none none])
    ⟨[Op.put 1 "a"], by decide⟩

/-- C20 (no null dereference). For every capacity `cap ≥ 1` and every reachable state:
whenever the index holds at least `cap` keys (the eviction branch of `put`), `tail` is
set and points to a node, so `tail->key` and `tail->prev` can be read; every handle
stored in the index, which is what `get` and `put` pass to `moveToFront` for a present
key, is set and points to a node; and `get` and `put` return for every argument: they
never take the failing branch of the embedding. -/
theorem no_null_dereference (cap : Nat) (hcap : 1 ≤ cap) (s : LRUCache K V)
    (hs : Reachable cap s) :
    (cap ≤ size s → ∃ t n, s.tail = some t ∧ s.heap.read s.tail = some n) ∧
      (∀ k p, Index.find s.cache k = some p → ∃ i n, p = some i ∧ s.heap.read p = some n) ∧
      (∀ k, ∃ r, get s k = some r) ∧
      (∀ k v, ∃ s1, put s k v = some s1) := by
  obtain ⟨l, hr, hc⟩ := reachable_repr hcap hs
  refine ⟨?_, ?_, ?_, ?_⟩
  · intro hfull
    rw [repr_size hr] at hfull
    rcases List.eq_nil_or_concat l with rfl | ⟨l1, t, rfl⟩
    · simp at hfull; omega
    · rw [List.concat_eq_append] at hr
      obtain ⟨nx, hseg, -⟩ := hr.seg
      have ht : s.tail = some t.ptr := by rw [hr.tail_eq, lastPtr_concat]
      exact ⟨t.ptr, _, ht, by rw [ht]; exact seg_last hseg⟩
  · intro k p hf
    obtain ⟨c, n, -, -, hp, hn, -, -⟩ := repr_find_read hr hf
    exact ⟨c.ptr, n, hp, by rw [hp]; exact hn⟩
  · intro k
    obtain ⟨s1, hg, -, -⟩ := get_abs (repr_abs hr) k
    exact ⟨_, hg⟩
  · intro k v
    obtain ⟨s1, hp, -, -⟩ := put_abs (repr_abs hr) k v
    exact ⟨s1, hp⟩

theorem no_null_dereference_witness :
    (1 ≤ size (LRUCache.mk 1 [(1, some 0)] (some 0) (some 0) [Node.mk 1 "a" none none] :
        LRUCache Nat String) →
      ∃ t n, (LRUCache.mk 1 [(1, some 0)] (some 0) (some 0) [Node.mk 1 "a" none none] :
          LRUCache Nat String).tail = some t ∧
        Heap.read [Node.mk 1 "a" none none] (some 0) = some n) ∧
    (∀ k p, Index.find [(1, some 0)] k = some p →
      ∃ i n, p = some i ∧ Heap.read [Node.mk 1 "a" none none] p = some n) ∧
    (∀ k, ∃ r,
      get (LRUCache.mk 1 [(1, some 0)] (some 0) (some 0) [Node.mk 1 "a" none none] :
        LRUCache Nat String) k = some r) ∧
    (∀ k v, ∃ s1,
      put (LRUCache.mk 1 [(1, some 0)] (some 0) (some 0) [Node.mk 1 "a" none none] :
        LRUCache Nat String) k v = some s1) :=
  no_null_dereference 1 (by decide)
    (LRUCache.mk 1 [(1, some 0)] (some 0) (some 0) [Node.mk 1 "a" none none])
    ⟨[Op.put 1 "a"], by decide⟩

/-! ## Traversals of the linked list -/

theorem walk_null (h : Heap K V) (fuel : Nat) : walk h fuel none = some [] := by
  cases fuel <;> rfl

theorem walkTo_null (h : Heap K V) (tail : Ptr) (fuel : Nat) :
    walkTo h tail fuel none = some [] := by
  cases fuel <;> rfl

/-- Following `next` from the first node of a null-terminated stretch visits exactly
the stretch. -/
theorem seg_walk {h : Heap K V} {pv : Ptr} {l : List (Cell K V)} (hs : Seg h pv l none)
    {fuel : Nat} (hf : l.length ≤ fuel) : walk h fuel (firstPtr l none) = some (ptrs l) := by
  induction l generalizing pv fuel with
  | nil => exact walk_null h fuel
  | cons c r ih =>
    obtain ⟨f, rfl⟩ : ∃ f, fuel = f + 1 := ⟨fuel - 1, by simp at hf; omega⟩
    obtain ⟨hc, hr⟩ := hs
    have hrec : walk h f (firstPtr r none) = some (ptrs r) :=
      ih hr (by simp at hf; omega)
    simp only [firstPtr_cons, walk, hc, hrec]
    rfl

/-- Following `next` from the first node of a stretch up to its last node visits
exactly the stretch, whatever the `next` link of the last node is. -/
theorem seg_walkTo {h : Heap K V} {pv nx e : Ptr} {c : Cell K V} {r : List (Cell K V)}
    (hs : Seg h pv (c :: r) nx) (hnd : (ptrs (c :: r)).Nodup) {fuel : Nat}
    (hf : (c :: r).length ≤ fuel) :
    walkTo h (lastPtr (c :: r) e) fuel (some c.ptr) = some (ptrs (c :: r)) := by
  induction r generalizing c pv e fuel with
  | nil =>
    obtain ⟨f, rfl⟩ : ∃ f, fuel = f + 1 := ⟨fuel - 1, by simp at hf; omega⟩
    simp [walkTo, lastPtr]
  | cons d r1 ih =>
    obtain ⟨f, rfl⟩ : ∃ f, fuel = f + 1 := ⟨fuel - 1, by simp at hf; omega⟩
    obtain ⟨hc, hr⟩ := hs
    have hnd1 : (ptrs (d :: r1)).Nodup := (List.nodup_cons.1 hnd).2
    have hcnot : c.ptr ∉ ptrs (d :: r1) := (List.nodup_cons.1 hnd).1
    have hrec : walkTo h (lastPtr (d :: r1) (some c.ptr)) f (some d.ptr)
        = some (ptrs (d :: r1)) :=
      ih hr hnd1 (by simp at hf ⊢; omega)
    obtain ⟨p, hp, hpm⟩ := lastPtr_mem (List.cons_ne_nil d r1) (some c.ptr)
    have hne : (some c.ptr : Ptr) ≠ lastPtr (c :: d :: r1) e := by
      show (some c.ptr : Ptr) ≠ lastPtr (d :: r1) (some c.ptr)
      rw [hp]
      intro hh
      exact hcnot (by rw [Option.some.inj hh]; exact hpm)
    have hl : lastPtr (c :: d :: r1) e = lastPtr (d :: r1) (some c.ptr) := rfl
    rw [firstPtr_cons] at hc
    simp only [walkTo, if_neg hne, hc]
    rw [hl, hrec]
    rfl

theorem keysAt_seg {h : Heap K V} {pv nx : Ptr} {l : List (Cell K V)}
    (hs : Seg h pv l nx) : keysAt h (ptrs l) = cellKeys l := by
  induction l generalizing pv with
  | nil => rfl
  | cons c r ih =>
    obtain ⟨hc, hr⟩ := hs
    have := ih hr
    unfold keysAt at this ⊢
    simp only [ptrs_cons, List.filterMap_cons, hc, Option.map_some', this, cellKeys_cons]

/-- The links of the `i`-th node of a null-terminated stretch. -/
theorem seg_links {h : Heap K V} {pv : Ptr} {l : List (Cell K V)} (hs : Seg h pv l none)
    {i : Nat} {c : Cell K V} (hi : l[i]? = some c) :
    ∃ n, h[c.ptr]? = some n ∧ n.key = c.key ∧ n.value = c.value ∧
      n.prev = (if i = 0 then pv else (l[i - 1]?).map (fun d => d.ptr)) ∧
      n.next = (l[i + 1]?).map (fun d => d.ptr) := by
  induction l generalizing pv i with
  | nil => simp at hi
  | cons c0 r ih =>
    obtain ⟨hc, hr⟩ := hs
    cases i with
    | zero =>
      simp only [List.getElem?_cons_zero, Option.some.injEq] at hi
      subst hi
      refine ⟨_, hc, rfl, rfl, by simp, ?_⟩
      cases r <;> simp [firstPtr]
    | succ j =>
      simp only [List.getElem?_cons_succ] at hi
      obtain ⟨n, hn, h1, h2, h3, h4⟩ := ih hr hi
      refine ⟨n, hn, h1, h2, ?_, ?_⟩
      · rw [h3]
        cases j with
        | zero => simp
        | succ j1 => simp
      · rw [h4]; simp

theorem lastPtr_eq_getLast? (l : List (Cell K V)) : lastPtr l none = (ptrs l).getLast? := by
  rcases List.eq_nil_or_concat l with rfl | ⟨l1, c, rfl⟩
  · rfl
  · rw [List.concat_eq_append, lastPtr_concat, ptrs_append]
    simp

theorem firstPtr_eq_head? (l : List (Cell K V)) : firstPtr l none = (ptrs l).head? := by
  cases l <;> rfl

theorem repr_length_le_heap {s : LRUCache K V} {l : List (Cell K V)} (hr : Repr s l) :
    l.length ≤ s.heap.length := by
  obtain ⟨nx, hseg, -⟩ := hr.seg
  have hsub : ptrs l ⊆ List.range s.heap.length :=
    fun p hp => List.mem_range.2 (seg_lt hseg hp)
  have := (List.subperm_of_subset hr.ptrs_nodup hsub).length_le
  simpa [ptrs] using this

/-- Reading the keys from `head` to `tail` gives the keys of the recency list. -/
theorem repr_keysHeadToTail {s : LRUCache K V} {l : List (Cell K V)} (hr : Repr s l) :
    keysHeadToTail s = some (cellKeys l) := by
  obtain ⟨nx, hseg, -⟩ := hr.seg
  unfold keysHeadToTail
  cases l with
  | nil =>
    have h1 : s.head = none := hr.head_eq
    rw [h1, walkTo_null]
    rfl
  | cons c r =>
    have h1 : s.head = some c.ptr := hr.head_eq
    rw [h1, hr.tail_eq, seg_walkTo hseg hr.ptrs_nodup (repr_length_le_heap hr)]
    simp only [Option.map_some', keysAt_seg hseg]

/-- C16 (observational equivalence with the list model). The reference model is
`Model.get` / `Model.put`: a list of pairs, most recently used first. For every
capacity `cap ≥ 1` and every finite sequence `ops` of `get` / `put` calls on the empty
cache: the calls all return; a `get(k)` issued after `ops` returns what the model
returns after `ops` (so every `get` of a sequence agrees with the model); the index
maps the same keys to the same values as the model; and the keys read from `head` to
`tail` along the `next` links are the keys of the model, in the model's order. -/
theorem model_equivalence (cap : Nat) (hcap : 1 ≤ cap) (ops : List (Op K V)) :
    ∃ s, run (LRUCache.new cap : LRUCache K V) ops = some s ∧
      (∀ k, answer s k = some (Model.get (Model.run cap [] ops) k).1) ∧
      (∀ k, k ∈ keys s ↔ k ∈ (Model.run cap [] ops).map Prod.fst) ∧
      size s = (Model.run cap [] ops).length ∧
      (∀ k, valueOf s k = Model.lookup (Model.run cap [] ops) k) ∧
      keysHeadToTail s = some ((Model.run cap [] ops).map Prod.fst) := by
  obtain ⟨s, hrun, ha, -⟩ := run_abs (abs_fresh (K := K) (V := V) hcap) ops
  have hcap0 : (LRUCache.new cap : LRUCache K V).capacity = cap := rfl
  rw [hcap0] at ha
  refine ⟨s, hrun, ?_, abs_mem_keys ha, abs_size ha, abs_valueOf ha, ?_⟩
  · intro k
    obtain ⟨s1, hg, -, -⟩ := get_abs ha k
    simp [answer, hg]
  · obtain ⟨l, hr, hl⟩ := ha
    rw [repr_keysHeadToTail hr, ← hl, kv_keys]

theorem model_equivalence_witness :
    1 ≤ 1 ∧ ∃ s, run (LRUCache.new 1 : LRUCache Nat String)
        [Op.put 1 "a", Op.put 2 "b", Op.get 1] = some s ∧
      (∀ k, answer s k = some (Model.get (Model.run 1 []
        [Op.put 1 "a", Op.put 2 "b", Op.get 1]) k).1) ∧
      (∀ k, k ∈ keys s ↔ k ∈ (Model.run 1 []
        [Op.put 1 "a", Op.put 2 "b", Op.get 1]).map Prod.fst) ∧
      size s = (Model.run 1 [] [Op.put 1 "a", Op.put 2 "b", Op.get (1 : Nat)] :
        List (Nat × String)).length ∧
      (∀ k, valueOf s k = Model.lookup (Model.run 1 []
        [Op.put 1 "a", Op.put 2 "b", Op.get 1]) k) ∧
      keysHeadToTail s = some ((Model.run 1 []
        [Op.put 1 "a", Op.put 2 "b", Op.get (1 : Nat)] : List (Nat × String)).map Prod.fst) :=
  ⟨by decide, model_equivalence 1 (by decide) _⟩

/-- C19 (well-formed doubly linked list). For every capacity `cap ≥ 2` and every
reachable state there is a list `l` of cells (address, key, value) such that: the chain
of `next` links from `head` is finite and is `l` (following it until a null link, with
any fuel of at least `size s`, visits exactly the addresses of `l`); it is acyclic (the
addresses are pairwise distinct); `head` is its first and `tail` its last address; the
node of the `i`-th cell stores the cell's key and value, its `prev` is the address of
the cell before it (null for the first: `head`'s `prev` is unset) and its `next` is
the address of the cell after it (null for the last: `tail`'s `next` is unset); the
keys are pairwise distinct; and the index maps a key to a handle iff the handle is the
address of the cell with that key. -/
theorem well_formed_list (cap : Nat) (hcap : 2 ≤ cap) (s : LRUCache K V)
    (hs : Reachable cap s) :
    ∃ l : List (Cell K V),
      (∀ fuel, size s ≤ fuel → walk s.heap fuel s.head = some (ptrs l)) ∧
      (ptrs l).Nodup ∧
      s.head = (ptrs l).head? ∧
      s.tail = (ptrs l).getLast? ∧
      (∀ i c, l[i]? = some c → ∃ n, s.heap[c.ptr]? = some n ∧
        n.key = c.key ∧ n.value = c.value ∧
        n.prev = (if i = 0 then none else (l[i - 1]?).map (fun d => d.ptr)) ∧
        n.next = (l[i + 1]?).map (fun d => d.ptr)) ∧
      (cellKeys l).Nodup ∧
      (∀ k p, Index.find s.cache k = some p ↔ ∃ c ∈ l, c.key = k ∧ p = some c.ptr) := by
  obtain ⟨l, hr, hc⟩ := reachable_repr (le_trans (by decide) hcap) hs
  obtain ⟨nx, hseg, hnx⟩ := hr.seg
  have hnx0 : nx = none := hnx (by rw [hc]; exact hcap)
  subst hnx0
  refine ⟨l, ?_, hr.ptrs_nodup, ?_, ?_, ?_, hr.keys_nodup, ?_⟩
  · intro fuel hf
    rw [repr_size hr] at hf
    rw [hr.head_eq]
    exact seg_walk hseg hf
  · rw [hr.head_eq, firstPtr_eq_head?]
  · rw [hr.tail_eq, lastPtr_eq_getLast?]
  · intro i c hi
    exact seg_links hseg hi
  · intro k p
    constructor
    · intro hf
      obtain ⟨c, n, hc1, hk, hp, -, -, -⟩ := repr_find_read hr hf
      exact ⟨c, hc1, hk, hp⟩
    · rintro ⟨c, hc1, rfl, rfl⟩
      exact repr_find_mem hr hc1

theorem well_formed_list_witness :
    ∃ l : List (Cell Nat String),
      (∀ fuel, size (LRUCache.mk 2 [(2, some 1), (1, some 0)] (some 1) (some 0)
          [Node.mk 1 "a" (some 1) none, Node.mk 2 "b" none (some 0)]) ≤ fuel →
        walk [Node.mk 1 "a" (some 1) none, Node.mk 2 "b" none (some 0)] fuel (some 1)
          = some (ptrs l)) ∧
      (ptrs l).Nodup ∧
      some 1 = (ptrs l).head? ∧
      some 0 = (ptrs l).getLast? ∧
      (∀ i c, l[i]? = some c → ∃ n,
        [Node.mk 1 "a" (some 1) none, Node.mk 2 "b" none (some 0)][c.ptr]? = some n ∧
        n.key = c.key ∧ n.value = c.value ∧
        n.prev = (if i = 0 then none else (l[i - 1]?).map (fun d => d.ptr)) ∧
        n.next = (l[i + 1]?).map (fun d => d.ptr)) ∧
      (cellKeys l).Nodup ∧
      (∀ k p, Index.find [(2, some 1), (1, some 0)] k = some p ↔
        ∃ c ∈ l, c.key = k ∧ p = some c.ptr) :=
  well_formed_list 2 (by decide)
    (LRUCache.mk 2 [(2, some 1), (1, some 0)] (some 1) (some 0)
      [Node.mk 1 "a" (some 1) none, Node.mk 2 "b" none (some 0)])
    ⟨[Op.put 1 "a", Op.put 2 "b"], by decide⟩

/-! ## The model under a sequence of `put` calls with repeated keys -/

theorem model_run_append (cap : Nat) (m : List (K × V)) (a b : List (Op K V)) :
    Model.run cap m (a ++ b) = Model.run cap (Model.run cap m a) b := by
  induction a generalizing m with
  | nil => rfl
  | cons o r ih => exact ih _

theorem remove_cons_eq (k : K) (v : V) (r : List (K × V)) :
    Model.remove ((k, v) :: r) k = Model.remove r k := by
  unfold Model.remove
  rw [List.filter_cons]
  simp

theorem remove_cons_ne {k0 k : K} (h : k0 ≠ k) (v0 : V) (r : List (K × V)) :
    Model.remove ((k0, v0) :: r) k = (k0, v0) :: Model.remove r k := by
  unfold Model.remove
  rw [List.filter_cons]
  simp [h]

theorem remove_append (a b : List (K × V)) (k : K) :
    Model.remove (a ++ b) k = Model.remove a k ++ Model.remove b k := by
  unfold Model.remove
  exact List.filter_append _ _

theorem lookup_remove_ne {m : List (K × V)} {k k1 : K} (h : k1 ≠ k) :
    Model.lookup (Model.remove m k) k1 = Model.lookup m k1 := by
  induction m with
  | nil => rfl
  | cons e r ih =>
    obtain ⟨k0, v0⟩ := e
    by_cases h0 : k0 = k
    · subst h0
      rw [remove_cons_eq, ih, lookup_cons_ne _ h]
    · rw [remove_cons_ne h0]
      by_cases h1 : k0 = k1
      · subst h1
        simp [Model.lookup]
      · have h2 : k1 ≠ k0 := fun e => h1 e.symm
        rw [lookup_cons_ne _ h2, lookup_cons_ne _ h2, ih]

theorem not_mem_remove_keys (m : List (K × V)) (k : K) :
    k ∉ (Model.remove m k).map Prod.fst := by
  intro h
  obtain ⟨e, he, hk⟩ := List.mem_map.1 h
  have := (List.mem_filter.1 he).2
  simp at this
  exact this hk

theorem remove_keys_nodup {m : List (K × V)} (h : (m.map Prod.fst).Nodup) (k : K) :
    ((Model.remove m k).map Prod.fst).Nodup :=
  List.Nodup.sublist ((List.filter_sublist m).map Prod.fst) h

theorem firstOcc_keys_nodup (l : List (K × V)) : ((Model.firstOcc l).map Prod.fst).Nodup := by
  induction l with
  | nil => exact List.nodup_nil
  | cons e r ih =>
    show (e.1 :: (Model.remove (Model.firstOcc r) e.1).map Prod.fst).Nodup
    exact List.nodup_cons.2 ⟨not_mem_remove_keys _ _, remove_keys_nodup ih _⟩

/-- The pair kept for a key is its first pair in the list. -/
theorem lookup_firstOcc (l : List (K × V)) (k : K) :
    Model.lookup (Model.firstOcc l) k = Model.lookup l k := by
  induction l with
  | nil => rfl
  | cons e r ih =>
    obtain ⟨k0, v0⟩ := e
    show Model.lookup ((k0, v0) :: Model.remove (Model.firstOcc r) k0) k = _
    by_cases h : k0 = k
    · simp [Model.lookup, h]
    · have h1 : k ≠ k0 := fun e => h e.symm
      rw [lookup_cons_ne _ h1, lookup_cons_ne _ h1, lookup_remove_ne h1, ih]

theorem take_remove_of_not_mem {U : List (K × V)} {k : K} {n : Nat}
    (h : k ∉ (U.take (n + 1)).map Prod.fst) :
    (Model.remove U k).take n = U.take n := by
  induction U generalizing n with
  | nil => rfl
  | cons e r ih =>
    obtain ⟨k0, v0⟩ := e
    simp only [List.take_succ_cons, List.map_cons, List.mem_cons, not_or] at h
    have h0 : ¬ k0 = k := fun e => h.1 e.symm
    have hrm : Model.remove ((k0, v0) :: r) k = (k0, v0) :: Model.remove r k :=
      remove_cons_ne h0 v0 r
    rw [hrm]
    cases n with
    | zero => rfl
    | succ j => rw [List.take_succ_cons, List.take_succ_cons, ih h.2]

theorem remove_take_of_mem {U : List (K × V)} (hnd : (U.map Prod.fst).Nodup) {k : K} {n : Nat}
    (h : k ∈ (U.take (n + 1)).map Prod.fst) :
    Model.remove (U.take (n + 1)) k = (Model.remove U k).take n := by
  induction U generalizing n with
  | nil => simp at h
  | cons e r ih =>
    obtain ⟨k0, v0⟩ := e
    simp only [List.map_cons, List.nodup_cons] at hnd
    rw [List.take_succ_cons]
    by_cases h0 : k0 = k
    · subst h0
      have hr : Model.remove r k0 = r := remove_of_not_mem hnd.1
      have hr1 : Model.remove (r.take n) k0 = r.take n :=
        remove_of_not_mem (fun hm => hnd.1
          (List.mem_map.2 (by
            obtain ⟨e, he, hk⟩ := List.mem_map.1 hm
            exact ⟨e, List.mem_of_mem_take he, hk⟩)))
      have e1 : Model.remove ((k0, v0) :: r.take n) k0 = Model.remove (r.take n) k0 :=
        remove_cons_eq _ _ _
      have e2 : Model.remove ((k0, v0) :: r) k0 = Model.remove r k0 :=
        remove_cons_eq _ _ _
      rw [e1, e2, hr, hr1]
    · have e1 : Model.remove ((k0, v0) :: r.take n) k = (k0, v0) :: Model.remove (r.take n) k :=
        remove_cons_ne h0 _ _
      have e2 : Model.remove ((k0, v0) :: r) k = (k0, v0) :: Model.remove r k :=
        remove_cons_ne h0 _ _
      simp only [List.take_succ_cons, List.map_cons, List.mem_cons] at h
      have hk : k ∈ (r.take n).map Prod.fst := by
        rcases h with h | h
        · exact absurd h.symm h0
        · exact h
      cases n with
      | zero => simp at hk
      | succ j => rw [e1, e2, List.take_succ_cons, ih hnd.2 hk]

/-- On the first `cap` pairs of a list without repeated keys, the model's `put` gives the
first `cap` pairs of the list with the key's pair moved (or added) in front. -/
theorem model_put_take {cap : Nat} (hcap : 1 ≤ cap) {U : List (K × V)}
    (hnd : (U.map Prod.fst).Nodup) (k : K) (v : V) :
    Model.put cap (U.take cap) k v = ((k, v) :: Model.remove U k).take cap := by
  obtain ⟨j, rfl⟩ : ∃ j, cap = j + 1 := ⟨cap - 1, by omega⟩
  rw [List.take_succ_cons]
  by_cases hk : k ∈ (U.take (j + 1)).map Prod.fst
  · obtain ⟨w, hw⟩ := lookup_isSome_of_mem hk
    simp only [Model.put, hw]
    rw [remove_take_of_mem hnd hk]
  · rw [model_put_new hk (by rw [List.length_take]; exact Nat.min_le_left _ _) hcap,
      List.take_succ_cons, List.take_take, take_remove_of_not_mem hk]
    simp

/-- A sequence of `put` calls on the empty model leaves the pairs of the sequence, one
per key and latest first, cut at `cap`. -/
theorem model_run_puts_any {cap : Nat} (hcap : 1 ≤ cap) (kvs : List (K × V)) :
    Model.run cap [] (puts kvs) = (Model.firstOcc kvs.reverse).take cap := by
  induction kvs using List.reverseRecOn with
  | nil => simp [puts, Model.run, Model.firstOcc]
  | append_singleton r e ih =>
    obtain ⟨k, v⟩ := e
    have hp : puts (r ++ [(k, v)]) = puts r ++ [Op.put k v] := by simp [puts]
    rw [hp, model_run_append, ih, List.reverse_concat]
    show Model.put cap ((Model.firstOcc r.reverse).take cap) k v = _
    rw [model_put_take hcap (firstOcc_keys_nodup _)]
    rfl

theorem firstOcc_concat (l : List (K × V)) (e : K × V) :
    Model.firstOcc (l ++ [e]) =
      if e.1 ∈ l.map Prod.fst then Model.firstOcc l else Model.firstOcc l ++ [e] := by
  induction l with
  | nil => simp [Model.firstOcc, Model.remove]
  | cons a r ih =>
    obtain ⟨ka, va⟩ := a
    obtain ⟨ke, ve⟩ := e
    show (ka, va) :: Model.remove (Model.firstOcc (r ++ [(ke, ve)])) ka = _
    rw [ih]
    by_cases h : ke ∈ r.map Prod.fst
    · have h1 : ke ∈ ((ka, va) :: r).map Prod.fst := by
        rw [List.map_cons]; exact List.mem_cons_of_mem _ h
      rw [if_pos h, if_pos h1]
      rfl
    · rw [if_neg h]
      by_cases h2 : ke = ka
      · have h1 : ke ∈ ((ka, va) :: r).map Prod.fst := by
          rw [List.map_cons, h2]; exact List.mem_cons_self _ _
        rw [if_pos h1, remove_append, h2, remove_cons_eq]
        show _ = (ka, va) :: Model.remove (Model.firstOcc r) ka
        simp [Model.remove]
      · have h1 : ke ∉ ((ka, va) :: r).map Prod.fst := by
          simp only [List.map_cons, List.mem_cons, not_or]
          exact ⟨h2, h⟩
        rw [if_neg h1, remove_append, remove_cons_ne h2]
        show _ = (ka, va) :: Model.remove (Model.firstOcc r) ka ++ [(ke, ve)]
        simp [Model.remove]

/-- The keys kept, latest first, are the keys of the sequence without repetition, in
the order of their last occurrence, reversed. -/
theorem firstOcc_reverse_keys (kvs : List (K × V)) :
    (Model.firstOcc kvs.reverse).map Prod.fst = ((kvs.map Prod.fst).dedup).reverse := by
  induction kvs with
  | nil => rfl
  | cons e r ih =>
    rw [List.reverse_cons, firstOcc_concat]
    by_cases h : e.1 ∈ r.map Prod.fst
    · have h1 : e.1 ∈ r.reverse.map Prod.fst := by simpa using h
      have hd : ((e :: r).map Prod.fst).dedup = (r.map Prod.fst).dedup := by
        rw [List.map_cons, List.dedup_cons_of_mem h]
      rw [if_pos h1, ih, hd]
    · have h1 : e.1 ∉ r.reverse.map Prod.fst := by simpa using h
      have hd : ((e :: r).map Prod.fst).dedup = e.1 :: (r.map Prod.fst).dedup := by
        rw [List.map_cons, List.dedup_cons_of_not_mem h]
      rw [if_neg h1, List.map_append, ih, hd]
      simp

theorem take_min_length {α : Type} (l : List α) (n : Nat) :
    l.take (min n l.length) = l.take n := by
  rcases Nat.le_total n l.length with h | h
  · rw [Nat.min_eq_left h]
  · rw [Nat.min_eq_right h, List.take_length, List.take_of_length_le h]

/-- C17 (the cache holds the most recently put keys). For every capacity `cap ≥ 1` and
every finite sequence of `put` calls (keys may repeat, no `get`) on a fresh cache: the
calls return; with the keys of the sequence listed by most recent occurrence without
repetition (`dedup` keeps the last occurrence of each key, `reverse` puts the latest
first) and `d` the number of distinct keys, the keys present are exactly the first
`min cap d` of that list, there are `min cap d` of them, they are read in that order
from `head` to `tail`, and each present key is mapped to the value of its last `put`
(the first pair with that key in the reversed sequence). -/
theorem most_recent_keys (cap : Nat) (hcap : 1 ≤ cap) (kvs : List (K × V)) :
    ∃ s, run (LRUCache.new cap : LRUCache K V) (puts kvs) = some s ∧
      (∀ k, k ∈ keys s ↔
        k ∈ (((kvs.map Prod.fst).dedup).reverse).take
          (min cap ((kvs.map Prod.fst).dedup).length)) ∧
      size s = min cap ((kvs.map Prod.fst).dedup).length ∧
      keysHeadToTail s = some ((((kvs.map Prod.fst).dedup).reverse).take
        (min cap ((kvs.map Prod.fst).dedup).length)) ∧
      (∀ k, k ∈ keys s → valueOf s k = Model.lookup kvs.reverse k) := by
  obtain ⟨s, hrun, ha, -⟩ := run_abs (abs_fresh (K := K) (V := V) hcap) (puts kvs)
  have hcap0 : (LRUCache.new cap : LRUCache K V).capacity = cap := rfl
  rw [hcap0, model_run_puts_any hcap] at ha
  have hkeys : ((Model.firstOcc kvs.reverse).take cap).map Prod.fst =
      (((kvs.map Prod.fst).dedup).reverse).take
        (min cap ((kvs.map Prod.fst).dedup).length) := by
    rw [List.map_take, firstOcc_reverse_keys]
    have := take_min_length ((kvs.map Prod.fst).dedup).reverse cap
    rw [List.length_reverse] at this
    exact this.symm
  refine ⟨s, hrun, ?_, ?_, ?_, ?_⟩
  · intro k
    rw [abs_mem_keys ha, hkeys]
  · rw [abs_size ha, ← List.length_map _ Prod.fst, hkeys, List.length_take,
      List.length_reverse]
    simp
  · obtain ⟨l, hr, hl⟩ := ha
    rw [repr_keysHeadToTail hr, ← kv_keys, hl, hkeys]
  · intro k hk
    have hk1 := (abs_mem_keys ha k).1 hk
    obtain ⟨w, hw⟩ := lookup_isSome_of_mem hk1
    have hmem := List.mem_of_mem_take ((lookup_eq_some_iff (abs_nodup ha)).1 hw)
    have hw1 := (lookup_eq_some_iff (firstOcc_keys_nodup kvs.reverse)).2 hmem
    rw [abs_valueOf ha, hw, ← lookup_firstOcc, hw1]

theorem most_recent_keys_witness :
    1 ≤ 2 ∧ ∃ s, run (LRUCache.new 2 : LRUCache Nat String)
        (puts [(1, "a"), (2, "b"), (1, "c"), (3, "d")]) = some s ∧
      (∀ k, k ∈ keys s ↔
        k ∈ ((([(1, "a"), (2, "b"), (1, "c"), (3, "d")].map Prod.fst).dedup).reverse).take
          (min 2 (([(1, "a"), (2, "b"), (1, "c"), (3, "d")].map Prod.fst).dedup).length)) ∧
      size s = min 2 (([(1, "a"), (2, "b"), (1, "c"), (3, "d")].map Prod.fst).dedup).length ∧
      keysHeadToTail s = some
        (((([(1, "a"), (2, "b"), (1, "c"), (3, "d")].map Prod.fst).dedup).reverse).take
          (min 2 (([(1, "a"), (2, "b"), (1, "c"), (3, "d")].map Prod.fst).dedup).length)) ∧
      (∀ k, k ∈ keys s →
        valueOf s k = Model.lookup [(1, "a"), (2, "b"), (1, "c"), (3, "d")].reverse k) :=
  ⟨by decide, most_recent_keys 2 (by decide) [(1, "a"), (2, "b"), (1, "c"), (3, "d")]⟩

/-! ## Protection of the promoted entry -/

/-- The node `tail` points to and the node before it, in a list of at least two
entries. -/
theorem repr_tail_prev {s : LRUCache K V} {l0 : List (Cell K V)} {u t : Cell K V}
    (hr : Repr s ((l0 ++ [u]) ++ [t])) :
    ∃ tn un, s.heap.read s.tail = some tn ∧ tn.key = t.key ∧
      s.heap.read tn.prev = some un ∧ un.key = u.key := by
  obtain ⟨nx, hseg, -⟩ := hr.seg
  have hT := seg_last hseg
  rw [lastPtr_concat] at hT
  have hA : Seg s.heap none (l0 ++ [u]) (some t.ptr) := ((seg_append _ _ _ _ _).1 hseg).1
  have hU := seg_last hA
  refine ⟨Node.mk t.key t.value (some u.ptr) nx,
    Node.mk u.key u.value (lastPtr l0 none) (some t.ptr), ?_, rfl, ?_, rfl⟩
  · rw [hr.tail_eq, lastPtr_concat]; exact hT
  · exact hU

theorem mem_init_iff {A L : List K} {b : K} (hp : List.Perm L (A ++ [b])) (hnd : L.Nodup)
    (k1 : K) : k1 ∈ A ↔ (k1 ∈ L ∧ k1 ≠ b) := by
  have hnd1 : (A ++ [b]).Nodup := hp.nodup_iff.1 hnd
  have hb : b ∉ A := fun h => (List.nodup_append.1 hnd1).2.2 h (by simp)
  rw [hp.mem_iff]
  simp only [List.mem_append, List.mem_singleton]
  constructor
  · intro h
    exact ⟨Or.inl h, fun e => hb (e ▸ h)⟩
  · rintro ⟨h | h, hne⟩
    · exact h
    · exact absurd h hne

/-- The entry at the front is still present, with its value, after at most
`capacity - 1` absent keys have been put. -/
theorem front_survives {s1 : LRUCache K V} {k : K} {v : V} {rest : List (K × V)}
    (ha : Abs s1 ((k, v) :: rest)) (news : List (K × V))
    (hlen : news.length + 1 ≤ s1.capacity) (hnd : (news.map Prod.fst).Nodup)
    (hnew : ∀ e ∈ news, e.1 ∉ ((k, v) :: rest).map Prod.fst) :
    ∃ s2, run s1 (puts news) = some s2 ∧ valueOf s2 k = some v ∧
      ∃ s3, get s2 k = some (s3, some v) := by
  have hcap : 1 ≤ s1.capacity := by omega
  obtain ⟨s2, hrun, ha2, -⟩ := run_abs ha (puts news)
  have hdisj : (news.map Prod.fst ++ ((k, v) :: rest).map Prod.fst).Nodup := by
    refine List.nodup_append.2 ⟨hnd, abs_nodup ha, ?_⟩
    intro k1 h1 h2
    obtain ⟨e, he, rfl⟩ := List.mem_map.1 h1
    exact hnew e he h2
  rw [model_run_puts hcap news _ hdisj (abs_bound ha)] at ha2
  have hmem : (k, v) ∈ (news.reverse ++ (k, v) :: rest).take s1.capacity := by
    rw [List.take_append_eq_append_take]
    refine List.mem_append_right _ ?_
    obtain ⟨j, hj⟩ : ∃ j, s1.capacity - news.reverse.length = j + 1 :=
      ⟨s1.capacity - news.reverse.length - 1, by simp; omega⟩
    rw [hj, List.take_succ_cons]
    exact List.mem_cons_self _ _
  have hl2 := (lookup_eq_some_iff (abs_nodup ha2)).2 hmem
  exact ⟨s2, hrun, by rw [abs_valueOf ha2, hl2], abs_get_of_lookup ha2 hl2⟩

/-- C18 (promotion protects for `cap - 1` insertions). For every capacity `cap ≥ 2`,
every reachable state whose index holds exactly `cap` keys and every key `k` present:
`get(k)` returns the value `v` of `k`; after the following `put` of `j` new pairwise
distinct keys `e :: r` (none in the cache), `1 ≤ j ≤ cap - 1`, the key `k` is still
present with value `v` and `get(k)` returns `v`; and the first of those puts evicts
the key that was least recently used among the keys other than `k`: the key of the node
`tail` pointed to before the `get` if that key is not `k`, otherwise the key of that
node's `prev` node. -/
theorem promotion_protects (cap : Nat) (hcap : 2 ≤ cap) (s : LRUCache K V)
    (hs : Reachable cap s) (hfull : size s = cap) (k : K) (hk : k ∈ keys s)
    (e : K × V) (r : List (K × V)) (hlen : (e :: r).length + 1 ≤ cap)
    (hnd : ((e :: r).map Prod.fst).Nodup) (hnew : ∀ y ∈ e :: r, y.1 ∉ keys s) :
    ∃ s1 v s2 s3 t u sa,
      get s k = some (s1, some v) ∧
      run s1 (puts (e :: r)) = some s2 ∧ valueOf s2 k = some v ∧
      get s2 k = some (s3, some v) ∧
      s.heap.read s.tail = some t ∧ s.heap.read t.prev = some u ∧
      put s1 e.1 e.2 = some sa ∧
      (∀ k1, k1 ∈ keys sa ↔
        (k1 = e.1 ∨ (k1 ∈ keys s ∧ k1 ≠ (if t.key = k then u.key else t.key)))) := by
  obtain ⟨l, hr, hc⟩ := reachable_repr (le_trans (by decide) hcap) hs
  have hlen_l : l.length = cap := by rw [← repr_size hr]; exact hfull
  have hk1 : k ∈ cellKeys l := (repr_keys_perm hr).mem_iff.1 hk
  obtain ⟨l1, x, l2, rfl, rfl⟩ := mem_cellKeys_split hk1
  obtain ⟨s1, hg, hr1, hcache, hcap1⟩ := get_hit hr
  have hkeys1 : keys s1 = keys s := by simp [keys, hcache]
  have hnew1 : ∀ y ∈ e :: r, y.1 ∉ (kv (x :: (l1 ++ l2))).map Prod.fst := by
    intro y hy hm
    exact hnew y hy (by rw [← hkeys1]; exact (abs_mem_keys (repr_abs hr1) _).2 hm)
  obtain ⟨s2, hrun, hval, s3, hg3⟩ :=
    front_survives (repr_abs hr1) (e :: r) (by rw [hcap1, hc]; exact hlen) hnd hnew1
  have he : e.1 ∉ cellKeys (x :: (l1 ++ l2)) := by
    rw [← kv_keys]; exact hnew1 e (List.mem_cons_self _ _)
  obtain ⟨sa, q, hput, hra, -⟩ := put_miss hr1 he e.2
  have hfull1 : s1.capacity ≤ (x :: (l1 ++ l2)).length := by
    rw [hcap1, hc, ← hlen_l]
    simp only [List.length_cons, List.length_append]
    omega
  rw [if_pos hfull1] at hra
  have hka : ∀ k1, k1 ∈ keys sa ↔
      (k1 = e.1 ∨ k1 ∈ cellKeys ((x :: (l1 ++ l2)).dropLast)) := by
    intro k1
    rw [(repr_keys_perm hra).mem_iff, cellKeys_cons, List.mem_cons]
  have hks : ∀ k1, k1 ∈ keys s ↔ k1 ∈ cellKeys (l1 ++ x :: l2) :=
    fun k1 => (repr_keys_perm hr).mem_iff
  have hknd := hr.keys_nodup
  rcases List.eq_nil_or_concat l2 with rfl | ⟨l3, t, rfl⟩
  · -- `k` is the key of the last entry: the entry before it is evicted
    obtain ⟨l0, u, rfl⟩ : ∃ l0 u, l1 = l0 ++ [u] := by
      rcases List.eq_nil_or_concat l1 with h | ⟨l0, u, h⟩
      · rw [h] at hlen_l; simp at hlen_l; omega
      · exact ⟨l0, u, by simpa using h⟩
    obtain ⟨tn, un, htn, htk, hun, huk⟩ := repr_tail_prev hr
    refine ⟨s1, x.value, s2, s3, tn, un, sa, hg, hrun, hval, hg3, htn, hun, hput, ?_⟩
    intro k1
    rw [hka, hks, if_pos htk, huk]
    have hdl : (x :: ((l0 ++ [u]) ++ [])).dropLast = x :: l0 := by
      rw [List.append_nil]
      exact @List.dropLast_concat _ (x :: l0) u
    have hperm : List.Perm (cellKeys ((l0 ++ [u]) ++ [x])) (cellKeys (x :: l0) ++ [u.key]) := by
      simp only [cellKeys_append, cellKeys_cons, cellKeys_nil]
      exact List.perm_append_comm
    rw [hdl, mem_init_iff hperm hknd k1]
  · -- `k` is not the key of the last entry: the last entry is evicted
    rw [List.concat_eq_append] at hr hknd hks hka
    have hassoc : l1 ++ x :: (l3 ++ [t]) = (l1 ++ x :: l3) ++ [t] := by simp
    obtain ⟨l0, u, hl0⟩ : ∃ l0 u, l1 ++ x :: l3 = l0 ++ [u] := by
      rcases List.eq_nil_or_concat (l1 ++ x :: l3) with h | ⟨l0, u, h⟩
      · simp at h
      · exact ⟨l0, u, by simpa using h⟩
    have hr2 : Repr s ((l0 ++ [u]) ++ [t]) := by rw [← hl0, ← hassoc]; exact hr
    obtain ⟨tn, un, htn, htk, hun, -⟩ := repr_tail_prev hr2
    have hne : ¬ tn.key = x.key := by
      rw [htk]
      intro h
      rw [hassoc, cellKeys_append] at hknd
      have hx : x.key ∈ cellKeys (l1 ++ x :: l3) := by simp
      exact (List.nodup_append.1 hknd).2.2 hx (by simp [h])
    refine ⟨s1, x.value, s2, s3, tn, un, sa, hg, hrun, hval, hg3, htn, hun, hput, ?_⟩
    intro k1
    rw [hka, hks, if_neg hne, htk]
    have hdl : (x :: (l1 ++ (l3 ++ [t]))).dropLast = x :: (l1 ++ l3) := by
      have : x :: (l1 ++ (l3 ++ [t])) = (x :: (l1 ++ l3)) ++ [t] := by simp
      rw [this, List.dropLast_concat]
    have hperm : List.Perm (cellKeys (l1 ++ x :: (l3 ++ [t])))
        (cellKeys (x :: (l1 ++ l3)) ++ [t.key]) := by
      simp [cellKeys]
    rw [hdl, mem_init_iff hperm hknd k1]

theorem promotion_protects_witness :
    ∃ s1 v s2 s3 t u sa,
      get (LRUCache.mk 2 [(2, some 1), (1, some 0)] (some 1) (some 0)
        [Node.mk 1 "a" (some 1) none, Node.mk 2 "b" none (some 0)]) 1 = some (s1, some v) ∧
      run s1 (puts ((3, "c") :: [])) = some s2 ∧ valueOf s2 1 = some v ∧
      get s2 1 = some (s3, some v) ∧
      Heap.read [Node.mk 1 "a" (some 1) none, Node.mk 2 "b" none (some 0)] (some 0) = some t ∧
      Heap.read [Node.mk 1 "a" (some 1) none, Node.mk 2 "b" none (some 0)] t.prev = some u ∧
      put s1 3 "c" = some sa ∧
      (∀ k1, k1 ∈ keys sa ↔
        (k1 = 3 ∨ (k1 ∈ [2, 1] ∧ k1 ≠ (if t.key = 1 then u.key else t.key)))) :=
  promotion_protects 2 (by decide)
    (LRUCache.mk 2 [(2, some 1), (1, some 0)] (some 1) (some 0)
      [Node.mk 1 "a" (some 1) none, Node.mk 2 "b" none (some 0)])
    ⟨[Op.put 1 "a", Op.put 2 "b"], by decide⟩ rfl 1 (by decide) (3, "c") []
    (by decide) (by decide) (by decide)

end LRU
